import Mathlib

/-!
Verification of the two jx-gitops command line utilities:

* the YAML rename tool (`pkg/cmd/rename/rename.go`), which walks a
  directory tree and renames every `*.yaml` / `*.yml` file to a canonical
  name derived from the embedded Kubernetes `kind` and `name` fields, and
* the Jenkins job generator (`pkg/cmd/jenkins/jobs/jobs.go`), which loads
  a source-repository configuration, renders per-repository Jenkins job
  XML templates and writes one `values.yaml` per Jenkins server.

Both programs are shallowly embedded: filesystems become association
lists from path strings to contents, external collaborators (the YAML
parser for the source configuration, the group-to-repository defaulting
step and the template engine) become function parameters, and the Go
control flow is translated statement by statement.
-/

namespace JxGitops

/-! ### Character list helpers for path manipulation

Go's `path/filepath` functions (`Split`, `Ext`, `Join`) scan a path from
the end looking for the last separator or dot.  We model them with a
helper that splits a (reversed) character list at the first occurrence
of a given character. -/

/-- Splits a character list at the first occurrence of `c0`: returns the
consumed prefix (which does not contain `c0`) and the remainder (which is
empty or starts with `c0`). -/
def spanNoChar (c0 : Char) : List Char → List Char × List Char
  | [] => ([], [])
  | c :: cs =>
    if c = c0 then ([], c :: cs)
    else
      let p := spanNoChar c0 cs
      (c :: p.1, p.2)

theorem spanNoChar_append (c0 : Char) (a b : List Char) (ha : c0 ∉ a)
    (hb : b = [] ∨ ∃ t, b = c0 :: t) : spanNoChar c0 (a ++ b) = (a, b) := by
  induction a with
  | nil =>
    rcases hb with rfl | ⟨t, rfl⟩
    · rfl
    · simp [spanNoChar]
  | cons c cs ih =>
    have hc : c ≠ c0 := by
      intro h
      exact ha (h ▸ List.mem_cons_self c cs)
    have ih' := ih (fun h => ha (List.mem_cons_of_mem c h))
    simp [spanNoChar, hc, ih']

theorem spanNoChar_spec (c0 : Char) (l : List Char) :
    l = (spanNoChar c0 l).1 ++ (spanNoChar c0 l).2 ∧ c0 ∉ (spanNoChar c0 l).1 ∧
      ((spanNoChar c0 l).2 = [] ∨ ∃ t, (spanNoChar c0 l).2 = c0 :: t) := by
  induction l with
  | nil => simp [spanNoChar]
  | cons c cs ih =>
    by_cases hc : c = c0
    · subst hc
      refine ⟨?_, ?_, ?_⟩ <;> simp [spanNoChar]
    · obtain ⟨h1, h2, h3⟩ := ih
      refine ⟨?_, ?_, ?_⟩
      · simpa [spanNoChar, hc] using congrArg (c :: ·) h1
      · simp only [spanNoChar, if_neg hc]
        intro hmem
        rcases List.mem_cons.mp hmem with h | h
        · exact hc h.symm
        · exact h2 h
      · simpa [spanNoChar, hc] using h3

/-! ### String helpers -/

/-- Model of Go `strings.HasSuffix`: `suf` is a suffix of `s`.  Stated via
reversed character lists so that path lemmas can reason about the final
characters of a path directly. -/
def strHasSuffix (s suf : String) : Bool :=
  decide (s.data.reverse.take suf.data.length = suf.data.reverse)

theorem data_append (a b : String) : (a ++ b).data = a.data ++ b.data := rfl

theorem string_eq_of_data (a b : String) (h : a.data = b.data) : a = b := by
  cases a; cases b; exact congrArg String.mk h

/-! ### Path functions (model of Go `path/filepath`)

`joinPath` models `filepath.Join` on two components: `Join(a, b)` is
`Clean(a + "/" + b)` in Go; for the already-clean paths manipulated by
this program that is `b` when `a` is empty, `a` when `b` is empty, and
the two parts glued with exactly one `/` otherwise. -/

def joinPath (a b : String) : String :=
  if a = "" then b
  else if b = "" then a
  else if strHasSuffix a "/" then a ++ b
  else a ++ "/" ++ b

/-- Model of Go `filepath.Split`: splits a path immediately after the
final `/`, returning the directory part (with the trailing `/` kept, or
empty) and the file part. -/
def splitPath (p : String) : String × String :=
  let r := spanNoChar '/' p.data.reverse
  (⟨r.2.reverse⟩, ⟨r.1.reverse⟩)

/-- Model of Go `filepath.Ext`: the suffix of the final path element
starting at its final dot, or the empty string when the final element has
no dot. -/
def extOf (p : String) : String :=
  let f := (splitPath p).2
  let r := spanNoChar '.' f.data.reverse
  match r.2 with
  | [] => ""
  | _ :: _ => ⟨'.' :: r.1.reverse⟩

/-! ### Canonical namer (`rename.go`, `canonicalName` and `kindSuffixes`) -/

/-- ASCII model of Go `strings.ToLower` on a single character.  The kinds
in the suffix table and in Kubernetes manifests are ASCII. -/
def lowerChar : Char → Char
  | 'A' => 'a' | 'B' => 'b' | 'C' => 'c' | 'D' => 'd' | 'E' => 'e'
  | 'F' => 'f' | 'G' => 'g' | 'H' => 'h' | 'I' => 'i' | 'J' => 'j'
  | 'K' => 'k' | 'L' => 'l' | 'M' => 'm' | 'N' => 'n' | 'O' => 'o'
  | 'P' => 'p' | 'Q' => 'q' | 'R' => 'r' | 'S' => 's' | 'T' => 't'
  | 'U' => 'u' | 'V' => 'v' | 'W' => 'w' | 'X' => 'x' | 'Y' => 'y'
  | 'Z' => 'z'
  | c => c

/-- ASCII model of Go `strings.ToLower`. -/
def lowerStr (s : String) : String := ⟨s.data.map lowerChar⟩

/-- The static kind-to-abbreviation table `kindSuffixes` of `rename.go`. -/
def kindSuffixes : List (String × String) :=
  [("clusterrolebinding", "crb"),
   ("configmap", "cm"),
   ("customresourcedefinition", "crd"),
   ("deployment", "deploy"),
   ("mutatingwebhookconfiguration", "mutwebhookcfg"),
   ("namespace", "ns"),
   ("rolebinding", "rb"),
   ("service", "svc"),
   ("serviceaccount", "sa"),
   ("validatingwebhookconfiguration", "valwebhookcfg")]

/-- The `Options.canonicalName` function of `rename.go`.  A Go map lookup
yields the zero value `""` for a missing key, and the code replaces an
empty suffix with the lower-cased kind. -/
def canonicalName (kind name : String) : String :=
  let lk := lowerStr kind
  let s0 := (kindSuffixes.lookup lk).getD ""
  let suffix := if s0 = "" then lk else s0
  if kind = "" then name
  else name ++ "-" ++ suffix

/-! ### Directory renamer (`rename.go`, `Options.Run`) -/

/-- Parsed view of a YAML file: the `name` and `kind` extracted by
`kyamls.GetName` / `kyamls.GetKind` (external collaborators; they fall
back to the empty string when a field is absent). -/
structure YamlNode where
  name : String
  kind : String
deriving DecidableEq

/-- Filesystem for the rename tool: an association list from a path to
the parse result of the file at that path.  `none` models a file that
`yaml.ReadFile` fails to parse. -/
abbrev RenameFS := List (String × Option YamlNode)

/-- Removes every entry with the given path. -/
def removeKey (p : String) (fs : RenameFS) : RenameFS :=
  fs.filter (fun e => e.1 != p)

/-- The suffix filter of the walk function: only `*.yaml` and `*.yml`
files are processed. -/
def isYamlFile (p : String) : Bool :=
  strHasSuffix p ".yaml" || strHasSuffix p ".yml"

/-- The new path computed for a parsed YAML file, mirroring the body of
the walk function: `dir, file := filepath.Split(path)`,
`ext := filepath.Ext(path)`, `cn := canonicalName(kind, name)`,
`newPath := filepath.Join(dir, cn + ext)`. -/
def newPathFor (path : String) (node : YamlNode) : String :=
  let d := (splitPath path).1
  let ext := extOf path
  let cn := canonicalName node.kind node.name
  joinPath d (cn ++ ext)

/-- One step of the walk of `Options.Run` in `rename.go`, at one path.
Returns the updated filesystem together with the renames performed
(old path, new path).  A missing file corresponds to `info == nil`
(skipped); a parse failure aborts with an error naming the path; an
empty name is only a logged warning; otherwise the file is renamed when
the computed path differs (`os.Rename` replaces an existing target). -/
def visit (fs : RenameFS) (path : String) :
    Except String (RenameFS × List (String × String)) :=
  match fs.lookup path with
  | none => .ok (fs, [])
  | some content =>
    if isYamlFile path = false then .ok (fs, [])
    else
      match content with
      | none => .error ("failed to load file " ++ path)
      | some node =>
        if node.name = "" then .ok (fs, [])
        else
          let np := newPathFor path node
          if np = path then .ok (fs, [])
          else .ok ((np, some node) :: removeKey np (removeKey path fs), [(path, np)])

/-- The walk of `Options.Run` over a list of paths (the snapshot of the
tree in walk order); an error from any step aborts the whole walk. -/
def runWalk (fs : RenameFS) : List String → Except String (RenameFS × List (String × String))
  | [] => .ok (fs, [])
  | p :: ps =>
    match visit fs p with
    | .error e => .error e
    | .ok (fs', log1) =>
      match runWalk fs' ps with
      | .error e => .error e
      | .ok (fs'', log2) => .ok (fs'', log1 ++ log2)

/-- The `Options.Run` entry point of `rename.go`: the walk result with
the final error wrap `failed to rename YAML files in dir %s`. -/
def renameRun (dir : String) (fs : RenameFS) (ps : List String) :
    Except String (RenameFS × List (String × String)) :=
  match runWalk fs ps with
  | .error e => .error ("failed to rename YAML files in dir " ++ dir ++ ": " ++ e)
  | .ok r => .ok r

/-! ### Path lemmas -/

theorem mk_data (s : String) : (⟨s.data⟩ : String) = s := rfl

theorem splitPath_spec (p : String) :
    p.data = (splitPath p).1.data ++ (splitPath p).2.data ∧
      '/' ∉ (splitPath p).2.data ∧
      ((splitPath p).1.data = [] ∨ ∃ t, (splitPath p).1.data = t ++ ['/']) := by
  obtain ⟨h1, h2, h3⟩ := spanNoChar_spec '/' p.data.reverse
  refine ⟨?_, ?_, ?_⟩
  · have := congrArg List.reverse h1
    simpa [splitPath] using this
  · simp only [splitPath]
    intro h
    exact h2 (List.mem_reverse.mp h)
  · rcases h3 with h | ⟨t, h⟩
    · left; simp [splitPath, h]
    · right
      exact ⟨t.reverse, by simp [splitPath, h]⟩

theorem splitPath_of_append (d f : List Char) (hf : '/' ∉ f)
    (hd : d = [] ∨ ∃ t, d = t ++ ['/']) :
    splitPath ⟨d ++ f⟩ = (⟨d⟩, ⟨f⟩) := by
  have hrev : (d ++ f).reverse = f.reverse ++ d.reverse := by
    simp
  have hspan : spanNoChar '/' (f.reverse ++ d.reverse) = (f.reverse, d.reverse) := by
    refine spanNoChar_append '/' f.reverse d.reverse ?_ ?_
    · intro h; exact hf (List.mem_reverse.mp h)
    · rcases hd with rfl | ⟨t, rfl⟩
      · left; simp
      · right; exact ⟨t.reverse, by simp⟩
  simp [splitPath, hrev, hspan]

theorem hasSuffix_of_data_append (s suf : String) (a : List Char)
    (h : s.data = a ++ suf.data) : strHasSuffix s suf = true := by
  have : s.data.reverse = suf.data.reverse ++ a.reverse := by
    simp [h]
  simp [strHasSuffix, this, List.take_left']

theorem hasSuffix_iff (s suf : String) :
    strHasSuffix s suf = true ↔
      s.data.reverse.take suf.data.length = suf.data.reverse := by
  simp [strHasSuffix]

theorem hasSuffix_transfer (p suf : String) (hmem : '/' ∉ suf.data)
    (h : strHasSuffix p suf = true) :
    strHasSuffix (splitPath p).2 suf = true := by
  obtain ⟨hp, hfree, hdir⟩ := splitPath_spec p
  rw [hasSuffix_iff] at h ⊢
  have hrev : p.data.reverse =
      (splitPath p).2.data.reverse ++ (splitPath p).1.data.reverse := by
    rw [hp]; simp
  rw [hrev, List.take_append_eq_append_take] at h
  by_cases hlen : suf.data.length ≤ (splitPath p).2.data.reverse.length
  · rw [Nat.sub_eq_zero_of_le hlen] at h
    simpa using h
  · exfalso
    push_neg at hlen
    have hm1 : 1 ≤ suf.data.length - (splitPath p).2.data.reverse.length := by omega
    rcases hdir with hnil | ⟨t, ht⟩
    · rw [hnil] at h
      simp only [List.reverse_nil, List.take_nil, List.append_nil] at h
      have hlen2 := congrArg List.length h
      rw [List.length_take, List.length_reverse, List.length_reverse] at hlen2
      have hlen3 : (splitPath p).2.data.reverse.length = (splitPath p).2.data.length := by
        simp
      omega
    · have hdr : (splitPath p).1.data.reverse = '/' :: t.reverse := by
        rw [ht]; simp
      rw [hdr] at h
      obtain ⟨k, hk⟩ : ∃ k, suf.data.length - (splitPath p).2.data.reverse.length
          = k + 1 := ⟨_, (Nat.succ_pred_eq_of_pos hm1).symm⟩
      rw [hk, List.take_succ_cons] at h
      have hsl : '/' ∈ suf.data.reverse := by
        rw [← h]
        exact List.mem_append_right _ (List.mem_cons_self _ _)
      exact hmem (List.mem_reverse.mp hsl)

theorem extOf_of_suffix (p : String) (e : List Char) (hdot : '.' ∉ e)
    (h : strHasSuffix (splitPath p).2 ⟨'.' :: e⟩ = true) :
    extOf p = ⟨'.' :: e⟩ := by
  rw [hasSuffix_iff] at h
  set f := (splitPath p).2 with hf
  have hlen : ('.' :: e).length ≤ f.data.reverse.length := by
    by_contra hc
    push_neg at hc
    have hth := congrArg List.length h
    rw [List.length_take] at hth
    simp only [List.length_reverse] at hth
    rw [List.length_reverse] at hc
    omega
  have hsplit : f.data.reverse =
      e.reverse ++ ('.' :: f.data.reverse.drop ('.' :: e).length) := by
    conv_lhs => rw [← List.take_append_drop ('.' :: e).length f.data.reverse]
    rw [h]
    simp
  have hspan : spanNoChar '.' (e.reverse ++ ('.' :: f.data.reverse.drop ('.' :: e).length))
      = (e.reverse, '.' :: f.data.reverse.drop ('.' :: e).length) := by
    refine spanNoChar_append '.' _ _ ?_ ?_
    · intro hm; exact hdot (List.mem_reverse.mp hm)
    · right; exact ⟨_, rfl⟩
  rw [extOf, ← hf, hsplit, hspan]
  simp

theorem extOf_yaml (p : String) (h : strHasSuffix (splitPath p).2 ".yaml" = true) :
    extOf p = ".yaml" :=
  extOf_of_suffix p ['y', 'a', 'm', 'l'] (by decide) h

theorem extOf_yml (p : String) (h : strHasSuffix (splitPath p).2 ".yml" = true) :
    extOf p = ".yml" :=
  extOf_of_suffix p ['y', 'm', 'l'] (by decide) h

/-! ### Slash-freeness of canonical names -/

theorem lowerChar_slash (c : Char) (h : lowerChar c = '/') : c = '/' := by
  unfold lowerChar at h
  split at h <;> first
    | exact h
    | exact absurd h (by decide)

theorem lowerStr_slash_free (s : String) (h : '/' ∉ s.data) :
    '/' ∉ (lowerStr s).data := by
  intro hm
  simp only [lowerStr] at hm
  obtain ⟨c, hc, hc2⟩ := List.mem_map.mp hm
  exact h (lowerChar_slash c hc2 ▸ hc)

theorem lookup_mem {α β : Type} [BEq α] (k : α) (l : List (α × β)) (v : β)
    (h : l.lookup k = some v) : ∃ k', (k', v) ∈ l := by
  induction l with
  | nil => simp [List.lookup] at h
  | cons e rest ih =>
    obtain ⟨a, b⟩ := e
    rw [List.lookup_cons] at h
    by_cases hk : (k == a) = true
    · simp only [hk] at h
      have hv : b = v := by injection h
      exact ⟨a, by rw [← hv]; exact List.mem_cons_self _ _⟩
    · simp only [Bool.not_eq_true] at hk
      simp only [hk] at h
      obtain ⟨k', hk'⟩ := ih h
      exact ⟨k', List.mem_cons_of_mem _ hk'⟩

theorem kindSuffixes_slash_free : ∀ e ∈ kindSuffixes, '/' ∉ e.2.data := by
  decide

theorem canonicalName_slash_free (kind name : String)
    (hk : '/' ∉ kind.data) (hn : '/' ∉ name.data) :
    '/' ∉ (canonicalName kind name).data := by
  unfold canonicalName
  by_cases hke : kind = ""
  · simpa [hke] using hn
  · simp only [if_neg hke]
    intro hm
    rw [data_append, data_append] at hm
    rcases List.mem_append.mp hm with hm1 | hm2
    · rcases List.mem_append.mp hm1 with hm3 | hm4
      · exact hn hm3
      · exact absurd hm4 (by decide)
    · revert hm2
      split
      · exact fun hm2 => lowerStr_slash_free kind hk hm2
      · next hs0 =>
        intro hm2
        rcases hlook : kindSuffixes.lookup (lowerStr kind) with _ | v
        · rw [hlook] at hs0 hm2
          simp at hs0
        · rw [hlook] at hm2
          obtain ⟨k', hk'⟩ := lookup_mem _ _ _ hlook
          exact kindSuffixes_slash_free _ hk' hm2

theorem canonicalName_ne_empty (kind name : String) (hn : name ≠ "") :
    canonicalName kind name ≠ "" := by
  unfold canonicalName
  by_cases hke : kind = ""
  · simpa [hke] using hn
  · simp only [if_neg hke]
    intro h
    have hd := congrArg String.data h
    rw [data_append, data_append] at hd
    simp at hd

/-! ### Join and split stability -/

theorem joinPath_data (d x : String)
    (hd : d.data = [] ∨ ∃ t, d.data = t ++ ['/']) (hx : x ≠ "") :
    (joinPath d x).data = d.data ++ x.data := by
  unfold joinPath
  by_cases hde : d = ""
  · simp [hde]
  · rcases hd with hnil | ⟨t, ht⟩
    · exact absurd (String.ext hnil) hde
    · have hsuf : strHasSuffix d "/" = true := by
        rw [hasSuffix_iff, ht]
        simp
      simp [hde, hx, hsuf, data_append]

theorem splitPath_joinPath (d x : String)
    (hd : d.data = [] ∨ ∃ t, d.data = t ++ ['/'])
    (hx : '/' ∉ x.data) (hxe : x ≠ "") :
    splitPath (joinPath d x) = (d, x) := by
  have h1 : joinPath d x = ⟨d.data ++ x.data⟩ :=
    String.ext (joinPath_data d x hd hxe)
  rw [h1, splitPath_of_append d.data x.data hx hd]

theorem newPathFor_eq (p : String) (node : YamlNode) :
    newPathFor p node =
      joinPath (splitPath p).1 (canonicalName node.kind node.name ++ extOf p) := rfl

theorem newPathFor_stable_aux (p : String) (node : YamlNode) (e : List Char)
    (he : '.' ∉ e) (hes : '/' ∉ e)
    (hsuf : strHasSuffix p ⟨'.' :: e⟩ = true)
    (hk : '/' ∉ node.kind.data) (hn : '/' ∉ node.name.data) :
    strHasSuffix (newPathFor p node) ⟨'.' :: e⟩ = true ∧
      newPathFor (newPathFor p node) node = newPathFor p node := by
  obtain ⟨hp, hffree, hdir⟩ := splitPath_spec p
  have hedot : '/' ∉ (⟨'.' :: e⟩ : String).data := by
    intro hm
    rcases List.mem_cons.mp hm with h1 | h1
    · exact absurd h1 (by decide)
    · exact hes h1
  have hsuf2 : strHasSuffix (splitPath p).2 ⟨'.' :: e⟩ = true :=
    hasSuffix_transfer p _ hedot hsuf
  have hext : extOf p = ⟨'.' :: e⟩ := extOf_of_suffix p e he hsuf2
  set cn := canonicalName node.kind node.name with hcn
  have hcnfree : '/' ∉ cn.data := canonicalName_slash_free _ _ hk hn
  have hxfree : '/' ∉ (cn ++ ⟨'.' :: e⟩).data := by
    rw [data_append]
    intro hm
    rcases List.mem_append.mp hm with h1 | h1
    · exact hcnfree h1
    · exact hedot h1
  have hxe : cn ++ (⟨'.' :: e⟩ : String) ≠ "" := by
    intro hq
    have hqd := congrArg String.data hq
    rw [data_append] at hqd
    simp at hqd
  have hq : newPathFor p node = joinPath (splitPath p).1 (cn ++ ⟨'.' :: e⟩) := by
    rw [newPathFor_eq, hext]
  have hqd : (newPathFor p node).data =
      (splitPath p).1.data ++ (cn ++ (⟨'.' :: e⟩ : String)).data := by
    rw [hq]
    exact joinPath_data _ _ hdir hxe
  constructor
  · apply hasSuffix_of_data_append _ _ ((splitPath p).1.data ++ cn.data)
    rw [hqd, data_append]
    simp [List.append_assoc]
  · have hsq : splitPath (newPathFor p node) = ((splitPath p).1, cn ++ ⟨'.' :: e⟩) := by
      rw [hq]
      exact splitPath_joinPath _ _ hdir hxfree hxe
    have hsq2 : strHasSuffix (splitPath (newPathFor p node)).2 ⟨'.' :: e⟩ = true := by
      rw [hsq]
      exact hasSuffix_of_data_append _ _ cn.data (by rw [data_append])
    have hextq : extOf (newPathFor p node) = ⟨'.' :: e⟩ :=
      extOf_of_suffix _ e he hsq2
    rw [newPathFor_eq (newPathFor p node), hextq, hsq, ← hcn]
    exact hq.symm

theorem newPathFor_stable (p : String) (node : YamlNode)
    (hy : isYamlFile p = true)
    (hk : '/' ∉ node.kind.data) (hn : '/' ∉ node.name.data) :
    isYamlFile (newPathFor p node) = true ∧
      newPathFor (newPathFor p node) node = newPathFor p node := by
  rw [isYamlFile, Bool.or_eq_true] at hy
  rcases hy with h | h
  · have haux := newPathFor_stable_aux p node ['y', 'a', 'm', 'l']
      (by decide) (by decide) h hk hn
    exact ⟨by rw [isYamlFile, Bool.or_eq_true]; exact Or.inl haux.1, haux.2⟩
  · have haux := newPathFor_stable_aux p node ['y', 'm', 'l']
      (by decide) (by decide) h hk hn
    exact ⟨by rw [isYamlFile, Bool.or_eq_true]; exact Or.inr haux.1, haux.2⟩

/-! ### Association list helpers for the rename filesystem -/

theorem lookup_none_forall {β : Type} (p : String) (l : List (String × β))
    (h : l.lookup p = none) : ∀ e ∈ l, e.1 ≠ p := by
  induction l with
  | nil => simp
  | cons a rest ih =>
    obtain ⟨k, v⟩ := a
    rw [List.lookup_cons] at h
    intro e he
    by_cases hk : (p == k) = true
    · rw [hk] at h
      exact absurd h (by simp)
    · rw [Bool.not_eq_true] at hk
      rw [hk] at h
      rcases List.mem_cons.mp he with rfl | he2
      · intro hep
        rw [beq_eq_false_iff_ne] at hk
        exact hk hep.symm
      · exact ih h e he2

theorem lookup_some_mem_self {β : Type} (p : String) (l : List (String × β)) (v : β)
    (h : l.lookup p = some v) : (p, v) ∈ l := by
  induction l with
  | nil => simp [List.lookup] at h
  | cons a rest ih =>
    obtain ⟨k, w⟩ := a
    rw [List.lookup_cons] at h
    by_cases hk : (p == k) = true
    · rw [hk] at h
      have hpk : p = k := by simpa using hk
      have hwv : w = v := by injection h
      rw [hpk, hwv]
      exact List.mem_cons_self _ _
    · rw [Bool.not_eq_true] at hk
      rw [hk] at h
      exact List.mem_cons_of_mem _ (ih h)

theorem nodup_mem_key_eq {β : Type} (l : List (String × β))
    (hk : (l.map Prod.fst).Nodup) {e1 e2 : String × β}
    (h1 : e1 ∈ l) (h2 : e2 ∈ l) (heq : e1.1 = e2.1) : e1 = e2 :=
  List.inj_on_of_nodup_map hk h1 h2 heq

theorem mem_removeKey (p : String) (fs : RenameFS) (e : String × Option YamlNode) :
    e ∈ removeKey p fs ↔ e ∈ fs ∧ e.1 ≠ p := by
  simp [removeKey, List.mem_filter, bne_iff_ne]

theorem nodupKeys_removeKey (p : String) (fs : RenameFS)
    (h : (fs.map Prod.fst).Nodup) : ((removeKey p fs).map Prod.fst).Nodup :=
  List.Nodup.sublist (List.Sublist.map _ (List.filter_sublist fs)) h

/-! ### Invariants of the rename walk -/

/-- Every parsed node in the filesystem has a slash-free name and kind. -/
def nodesOk (fs : RenameFS) : Prop :=
  ∀ e ∈ fs, ∀ n : YamlNode, e.2 = some n → '/' ∉ n.kind.data ∧ '/' ∉ n.name.data

/-- An entry the walk will never rename again: a YAML path must hold a
parseable node whose name is unresolvable or whose computed path is the
current path. -/
def settledEntry (e : String × Option YamlNode) : Prop :=
  isYamlFile e.1 = true →
    ∃ n : YamlNode, e.2 = some n ∧ (n.name = "" ∨ newPathFor e.1 n = e.1)

/-- Walk invariant: every entry is settled or its path is still pending. -/
def carry (fs : RenameFS) (pending : List String) : Prop :=
  ∀ e ∈ fs, settledEntry e ∨ e.1 ∈ pending

theorem carry_tail (fs : RenameFS) (p : String) (ps : List String)
    (hc : carry fs (p :: ps))
    (hset : ∀ e ∈ fs, e.1 = p → settledEntry e) : carry fs ps := by
  intro e he
  rcases hc e he with hs | hmem
  · exact Or.inl hs
  · rcases List.mem_cons.mp hmem with heq | hmem2
    · exact Or.inl (hset e he heq)
    · exact Or.inr hmem2

/-! ### Case equations for `visit` -/

theorem visit_none (fs : RenameFS) (p : String) (h : fs.lookup p = none) :
    visit fs p = .ok (fs, []) := by
  unfold visit
  rw [h]

theorem visit_not_yaml (fs : RenameFS) (p : String) (c : Option YamlNode)
    (h : fs.lookup p = some c) (hy : isYamlFile p = false) :
    visit fs p = .ok (fs, []) := by
  unfold visit
  rw [h, hy]
  simp

theorem visit_parse_error (fs : RenameFS) (p : String)
    (h : fs.lookup p = some none) (hy : isYamlFile p = true) :
    visit fs p = .error ("failed to load file " ++ p) := by
  unfold visit
  rw [h, hy]
  simp

theorem visit_skip_name (fs : RenameFS) (p : String) (node : YamlNode)
    (h : fs.lookup p = some (some node)) (hy : isYamlFile p = true)
    (hn : node.name = "") :
    visit fs p = .ok (fs, []) := by
  unfold visit
  rw [h, hy]
  simp [hn]

theorem visit_no_rename (fs : RenameFS) (p : String) (node : YamlNode)
    (h : fs.lookup p = some (some node)) (hy : isYamlFile p = true)
    (hn : node.name ≠ "") (hnp : newPathFor p node = p) :
    visit fs p = .ok (fs, []) := by
  unfold visit
  rw [h, hy]
  simp [hn, hnp]

theorem visit_rename (fs : RenameFS) (p : String) (node : YamlNode)
    (h : fs.lookup p = some (some node)) (hy : isYamlFile p = true)
    (hn : node.name ≠ "") (hnp : newPathFor p node ≠ p) :
    visit fs p = .ok
      ((newPathFor p node, some node) :: removeKey (newPathFor p node) (removeKey p fs),
       [(p, newPathFor p node)]) := by
  unfold visit
  rw [h, hy]
  simp [hn, hnp]

/-! ### The walk preserves the invariant -/

theorem visit_invariant (fs : RenameFS) (p : String) (ps : List String)
    (hok : nodesOk fs) (hnd : (fs.map Prod.fst).Nodup) (hc : carry fs (p :: ps))
    (fs' : RenameFS) (lg : List (String × String))
    (hv : visit fs p = .ok (fs', lg)) :
    nodesOk fs' ∧ (fs'.map Prod.fst).Nodup ∧ carry fs' ps := by
  cases hlook : fs.lookup p with
  | none =>
    rw [visit_none fs p hlook] at hv
    simp only [Except.ok.injEq, Prod.mk.injEq] at hv
    obtain ⟨rfl, rfl⟩ := hv
    refine ⟨hok, hnd, carry_tail fs p ps hc ?_⟩
    intro e he hep
    exact absurd hep (lookup_none_forall p fs hlook e he)
  | some c =>
    cases hyaml : isYamlFile p with
    | false =>
      rw [visit_not_yaml fs p c hlook hyaml] at hv
      simp only [Except.ok.injEq, Prod.mk.injEq] at hv
      obtain ⟨rfl, rfl⟩ := hv
      refine ⟨hok, hnd, carry_tail fs p ps hc ?_⟩
      intro e he hep hy
      rw [hep, hyaml] at hy
      exact absurd hy (by simp)
    | true =>
      cases c with
      | none =>
        rw [visit_parse_error fs p hlook hyaml] at hv
        exact absurd hv (by simp)
      | some node =>
        have hmem : (p, some node) ∈ fs := lookup_some_mem_self p fs _ hlook
        by_cases hn : node.name = ""
        · rw [visit_skip_name fs p node hlook hyaml hn] at hv
          simp only [Except.ok.injEq, Prod.mk.injEq] at hv
          obtain ⟨rfl, rfl⟩ := hv
          refine ⟨hok, hnd, carry_tail fs p ps hc ?_⟩
          intro e he hep _
          have he2 : e = (p, some node) := nodup_mem_key_eq fs hnd he hmem hep
          exact ⟨node, by rw [he2], Or.inl hn⟩
        · by_cases hnp : newPathFor p node = p
          · rw [visit_no_rename fs p node hlook hyaml hn hnp] at hv
            simp only [Except.ok.injEq, Prod.mk.injEq] at hv
            obtain ⟨rfl, rfl⟩ := hv
            refine ⟨hok, hnd, carry_tail fs p ps hc ?_⟩
            intro e he hep _
            have he2 : e = (p, some node) := nodup_mem_key_eq fs hnd he hmem hep
            exact ⟨node, by rw [he2], Or.inr (by rw [he2]; exact hnp)⟩
          · rw [visit_rename fs p node hlook hyaml hn hnp] at hv
            simp only [Except.ok.injEq, Prod.mk.injEq] at hv
            obtain ⟨rfl, rfl⟩ := hv
            obtain ⟨hkfree, hnfree⟩ := hok _ hmem node rfl
            refine ⟨?_, ?_, ?_⟩
            · intro e he n hen
              rcases List.mem_cons.mp he with rfl | he2
              · cases hen
                exact ⟨hkfree, hnfree⟩
              · have := (mem_removeKey _ _ _).mp he2
                have := (mem_removeKey _ _ _).mp this.1
                exact hok e this.1 n hen
            · rw [List.map_cons]
              refine List.Nodup.cons ?_ ?_
              · intro hmem2
                obtain ⟨e, he, hfst⟩ := List.mem_map.mp hmem2
                exact ((mem_removeKey _ _ _).mp he).2 hfst
              · exact nodupKeys_removeKey _ _ (nodupKeys_removeKey _ _ hnd)
            · intro e he
              rcases List.mem_cons.mp he with rfl | he2
              · left
                intro _
                exact ⟨node, rfl,
                  Or.inr (newPathFor_stable p node hyaml hkfree hnfree).2⟩
              · obtain ⟨he3, hnp2⟩ := (mem_removeKey _ _ _).mp he2
                obtain ⟨he4, hp2⟩ := (mem_removeKey _ _ _).mp he3
                rcases hc e he4 with hs | hmem2
                · exact Or.inl hs
                · rcases List.mem_cons.mp hmem2 with heq | hmem3
                  · exact absurd heq hp2
                  · exact Or.inr hmem3

theorem runWalk_invariant (ps : List String) (fs : RenameFS)
    (hok : nodesOk fs) (hnd : (fs.map Prod.fst).Nodup) (hc : carry fs ps)
    (fs1 : RenameFS) (lg : List (String × String))
    (h : runWalk fs ps = .ok (fs1, lg)) :
    nodesOk fs1 ∧ (fs1.map Prod.fst).Nodup ∧ ∀ e ∈ fs1, settledEntry e := by
  induction ps generalizing fs lg with
  | nil =>
    unfold runWalk at h
    simp only [Except.ok.injEq, Prod.mk.injEq] at h
    obtain ⟨rfl, rfl⟩ := h
    refine ⟨hok, hnd, ?_⟩
    intro e he
    rcases hc e he with hs | hmem
    · exact hs
    · exact absurd hmem (List.not_mem_nil _)
  | cons p ps ih =>
    unfold runWalk at h
    cases hv : visit fs p with
    | error e =>
      rw [hv] at h
      exact absurd h (by simp)
    | ok r =>
      obtain ⟨fs', lg1⟩ := r
      rw [hv] at h
      dsimp only at h
      cases hw : runWalk fs' ps with
      | error e =>
        rw [hw] at h
        exact absurd h (by simp)
      | ok r2 =>
        obtain ⟨fs'', lg2⟩ := r2
        rw [hw] at h
        simp only [Except.ok.injEq, Prod.mk.injEq] at h
        obtain ⟨rfl, rfl⟩ := h
        obtain ⟨hok', hnd', hc'⟩ := visit_invariant fs p ps hok hnd hc fs' lg1 hv
        exact ih fs' hok' hnd' hc' lg2 hw

theorem runWalk_of_settled (fs : RenameFS)
    (hset : ∀ e ∈ fs, settledEntry e) :
    ∀ ps, runWalk fs ps = .ok (fs, []) := by
  intro ps
  induction ps with
  | nil => rfl
  | cons p ps ih =>
    have hv : visit fs p = .ok (fs, []) := by
      cases hlook : fs.lookup p with
      | none => exact visit_none fs p hlook
      | some c =>
        cases hyaml : isYamlFile p with
        | false => exact visit_not_yaml fs p c hlook hyaml
        | true =>
          have hmem := lookup_some_mem_self p fs c hlook
          obtain ⟨n, hcn, hcase⟩ := hset _ hmem hyaml
          simp only at hcn
          subst hcn
          by_cases hname : n.name = ""
          · exact visit_skip_name fs p n hlook hyaml hname
          · rcases hcase with hname2 | hpath
            · exact absurd hname2 hname
            · exact visit_no_rename fs p n hlook hyaml hname hpath
    unfold runWalk
    rw [hv]
    dsimp only
    rw [ih]
    rfl

/-! ### Decomposition of the walk -/

theorem runWalk_cons_error (fs : RenameFS) (p : String) (l : List String) (e : String)
    (h : visit fs p = .error e) : runWalk fs (p :: l) = .error e := by
  unfold runWalk
  rw [h]

theorem runWalk_cons_ok (fs fs' : RenameFS) (lg : List (String × String))
    (p : String) (l : List String) (h : visit fs p = .ok (fs', lg)) :
    runWalk fs (p :: l) =
      match runWalk fs' l with
      | .error e => .error e
      | .ok r2 => .ok (r2.1, lg ++ r2.2) := by
  have hgoal : runWalk fs (p :: l) =
      match visit fs p with
      | .error e => .error e
      | .ok (fsn, lg1) =>
        match runWalk fsn l with
        | .error e => .error e
        | .ok (fs2, lg2) => .ok (fs2, lg1 ++ lg2) := rfl
  rw [hgoal, h]
  dsimp only
  cases hr : runWalk fs' l with
  | error e => rfl
  | ok r2 => cases r2; rfl

theorem runWalk_append (fs : RenameFS) (l1 l2 : List String) :
    runWalk fs (l1 ++ l2) =
      match runWalk fs l1 with
      | .error e => .error e
      | .ok r =>
        match runWalk r.1 l2 with
        | .error e => .error e
        | .ok r2 => .ok (r2.1, r.2 ++ r2.2) := by
  induction l1 generalizing fs with
  | nil =>
    rw [List.nil_append]
    dsimp only [runWalk]
    cases h : runWalk fs l2 with
    | error e => rfl
    | ok r2 => cases r2; simp
  | cons p ps ih =>
    rw [List.cons_append]
    cases hv : visit fs p with
    | error e =>
      rw [runWalk_cons_error fs p (ps ++ l2) e hv, runWalk_cons_error fs p ps e hv]
    | ok r =>
      obtain ⟨fs', lg⟩ := r
      rw [runWalk_cons_ok fs fs' lg p (ps ++ l2) hv, runWalk_cons_ok fs fs' lg p ps hv,
        ih fs']
      cases hw : runWalk fs' ps with
      | error e => rfl
      | ok r2 =>
        obtain ⟨a, b⟩ := r2
        dsimp only
        cases hw2 : runWalk a l2 with
        | error e => rfl
        | ok r3 =>
          obtain ⟨c, d⟩ := r3
          simp [List.append_assoc]

theorem kindSuffixes_vals_ne_empty : ∀ e ∈ kindSuffixes, e.2 ≠ "" := by
  decide

/-- C2: for every kind and every non-empty name, `canonicalName kind name`
returns `name` when the kind is empty, and otherwise
`name ++ "-" ++ suffix` where the suffix is the `kindSuffixes` entry for
the lower-cased kind when present and the lower-cased kind itself when
absent. -/
theorem claim_C2_canonicalName (kind name : String) (hn : name ≠ "") :
    (kind = "" → canonicalName kind name = name) ∧
    (kind ≠ "" → canonicalName kind name =
      name ++ "-" ++
        (match kindSuffixes.lookup (lowerStr kind) with
         | some s => s
         | none => lowerStr kind)) := by
  constructor
  · intro hk
    simp [canonicalName, hk]
  · intro hk
    unfold canonicalName
    rw [if_neg hk]
    rcases hl : kindSuffixes.lookup (lowerStr kind) with _ | v
    · simp [hl]
    · obtain ⟨k', hk'⟩ := lookup_mem _ _ _ hl
      have hv : v ≠ "" := kindSuffixes_vals_ne_empty _ hk'
      simp [hl, hv]

theorem claim_C2_canonicalName_witness :
    canonicalName "" "foo" = "foo" ∧ canonicalName "Service" "foo" = "foo-svc" ∧
      canonicalName "Widget" "foo" = "foo-widget" := by
  refine ⟨(claim_C2_canonicalName "" "foo" (by decide)).1 rfl, ?_, ?_⟩
  · have h := (claim_C2_canonicalName "Service" "foo" (by decide)).2 (by decide)
    rw [h]
    decide
  · have h := (claim_C2_canonicalName "Widget" "foo" (by decide)).2 (by decide)
    rw [h]
    decide

/-- C5 (amended): the Directory Renamer is idempotent on trees in which
every extracted resource name and kind is free of the path separator
`/`: after one successful walk over all paths of the tree, a second walk
over any list of paths performs no rename, changes nothing and reports
no error. -/
theorem claim_C5_idempotent_amended (fs fs1 : RenameFS)
    (ps : List String) (lg1 : List (String × String))
    (hok : nodesOk fs) (hnd : (fs.map Prod.fst).Nodup)
    (hcover : ∀ e ∈ fs, e.1 ∈ ps)
    (h1 : runWalk fs ps = .ok (fs1, lg1)) :
    ∀ ps2, runWalk fs1 ps2 = .ok (fs1, []) := by
  have hc : carry fs ps := fun e he => Or.inr (hcover e he)
  obtain ⟨hok1, hnd1, hset1⟩ := runWalk_invariant ps fs hok hnd hc fs1 lg1 h1
  exact runWalk_of_settled fs1 hset1

theorem claim_C5_idempotent_amended_witness :
    runWalk [("d/foo-svc.yaml", some ⟨"foo", "Service"⟩)] ["d/foo-svc.yaml"] =
      .ok ([("d/foo-svc.yaml", some ⟨"foo", "Service"⟩)], []) :=
  claim_C5_idempotent_amended
    [("d/foo.yaml", some ⟨"foo", "Service"⟩)]
    [("d/foo-svc.yaml", some ⟨"foo", "Service"⟩)]
    ["d/foo.yaml"] [("d/foo.yaml", "d/foo-svc.yaml")]
    (by
      intro e he n hen
      rw [List.mem_singleton] at he
      subst he
      cases hen
      exact ⟨by decide, by decide⟩)
    (by decide)
    (by
      intro e he
      rw [List.mem_singleton] at he
      subst he
      exact List.mem_singleton.mpr rfl)
    rfl
    ["d/foo-svc.yaml"]

/-- C5 counterexample: on a tree holding a YAML file whose embedded name
contains a path separator (`name: a/b`), the first walk succeeds and
renames the file, but the second walk over the resulting tree computes
yet another path and performs a further rename — the Directory Renamer
is not idempotent as claimed for every directory tree. -/
theorem claim_C5_counterexample :
    runWalk [("d/x.yaml", some ⟨"a/b", ""⟩)] ["d/x.yaml"] =
      .ok ([("d/a/b.yaml", some ⟨"a/b", ""⟩)], [("d/x.yaml", "d/a/b.yaml")]) ∧
    runWalk [("d/a/b.yaml", some ⟨"a/b", ""⟩)] ["d/a/b.yaml"] =
      .ok ([("d/a/a/b.yaml", some ⟨"a/b", ""⟩)], [("d/a/b.yaml", "d/a/a/b.yaml")]) :=
  ⟨rfl, rfl⟩

/-- C10: a YAML file that fails to parse aborts the whole walk with a
wrapped error naming the file path, whereas a file with an unresolvable
name lets the walk continue with no error and no rename at that file. -/
theorem claim_C10_parse_failure_aborts (dir p : String) (fs fs1 : RenameFS)
    (lg1 : List (String × String)) (ps1 ps2 : List String)
    (h1 : runWalk fs ps1 = .ok (fs1, lg1)) :
    (fs1.lookup p = some none → isYamlFile p = true →
      runWalk fs (ps1 ++ p :: ps2) = .error ("failed to load file " ++ p) ∧
      renameRun dir fs (ps1 ++ p :: ps2) =
        .error ("failed to rename YAML files in dir " ++ dir ++ ": " ++
          ("failed to load file " ++ p))) ∧
    (∀ n : YamlNode, fs1.lookup p = some (some n) → isYamlFile p = true →
      n.name = "" →
      runWalk fs (ps1 ++ p :: ps2) =
        match runWalk fs1 ps2 with
        | .error e => .error e
        | .ok r2 => .ok (r2.1, lg1 ++ r2.2)) := by
  constructor
  · intro hlook hy
    have hv := visit_parse_error fs1 p hlook hy
    have hwalk : runWalk fs (ps1 ++ p :: ps2) = .error ("failed to load file " ++ p) := by
      rw [runWalk_append, h1]
      dsimp only
      rw [runWalk_cons_error fs1 p ps2 _ hv]
    refine ⟨hwalk, ?_⟩
    unfold renameRun
    rw [hwalk]
  · intro n hlook hy hname
    have hv := visit_skip_name fs1 p n hlook hy hname
    rw [runWalk_append, h1]
    dsimp only
    rw [runWalk_cons_ok fs1 fs1 [] p ps2 hv]
    cases hr : runWalk fs1 ps2 with
    | error e => rfl
    | ok r2 => cases r2; simp

theorem claim_C10_parse_failure_aborts_witness :
    runWalk [("a.yaml", none)] ["a.yaml"] = .error "failed to load file a.yaml" ∧
    runWalk [("b.yaml", some ⟨"", "Service"⟩)] ["b.yaml"] =
      .ok ([("b.yaml", some ⟨"", "Service"⟩)], []) := by
  constructor
  · exact ((claim_C10_parse_failure_aborts "." "a.yaml" [("a.yaml", none)]
      [("a.yaml", none)] [] [] [] rfl).1 rfl rfl).1
  · have h := (claim_C10_parse_failure_aborts "." "b.yaml"
      [("b.yaml", some ⟨"", "Service"⟩)] [("b.yaml", some ⟨"", "Service"⟩)]
      [] [] [] rfl).2 ⟨"", "Service"⟩ rfl rfl rfl
    exact h

/-! ### Data model of the Jenkins job generator (`jobs.go`)

The configuration types live in `pkg/apis/gitops/v1alpha1` of this
repository; only the fields consumed by `jobs.go` are modelled, following
section 3 of the specification. -/

/-- Modelled from the spec: `v1alpha1.JenkinsConfig` — `Server` (empty
means skip) and the optional `XmlTemplate` path override. -/
structure JenkinsConfig where
  server : String
  xmlTemplate : String
deriving DecidableEq

/-- Modelled from the spec: `v1alpha1.Repository` — `Name`, `URL`,
`HTTPCloneURL` and the optional Jenkins sub-configuration (`nil` when the
repository is not built by Jenkins). -/
structure Repository where
  name : String
  url : String
  httpCloneURL : String
  jenkins : Option JenkinsConfig
deriving DecidableEq

/-- Modelled from the spec: `v1alpha1.RepositoryGroup` — the group
identity fields serving as defaults, and its repositories. -/
structure RepositoryGroup where
  owner : String
  provider : String
  providerKind : String
  providerName : String
  repositories : List Repository
deriving DecidableEq

/-- Modelled from the spec: `v1alpha1.SourceConfig` — an ordered sequence
of repository groups (`config.Spec.Groups`). -/
structure SourceConfig where
  groups : List RepositoryGroup
deriving DecidableEq

/-- The `JenkinsTemplateConfig` structure of `jobs.go`.  `TemplateData`
is a mapping from template variable names to strings, modelled as an
association list in insertion order. -/
structure JenkinsTemplateConfig where
  server : String
  key : String
  xmlTemplateFile : String
  xmlTemplateText : String
  templateData : List (String × String)
deriving DecidableEq

/-- Filesystem for the job generator: path to raw file contents.  A path
present in the list exists (`files.FileExists`) and reads successfully
(`ioutil.ReadFile`). -/
abbrev TextFS := List (String × String)

/-- The flag-backed fields of `Options` in `jobs.go`, as set by
`NewCmdJenkinsJobs` before `Run` is invoked (the `SourceConfig` and
`JenkinsServers` fields start at their zero values and are populated by
`Validate` and the processing loop). -/
structure Options where
  dir : String
  configFile : String
  outDir : String
  defaultXmlTemplate : String
deriving DecidableEq

/-- The state of `Options` after a successful `Validate`: resolved paths
plus the loaded source configuration. -/
structure ResolvedOptions where
  dir : String
  configFile : String
  outDir : String
  defaultXmlTemplate : String
  sourceConfig : SourceConfig
deriving DecidableEq

/-- Modelled from the spec: the default config path
`<dir>/.jx/gitops/source-config.yaml` built by `Validate` from
`v1alpha1.SourceConfigFileName`. -/
def resolveConfigFile (o : Options) : String :=
  if o.configFile = "" then
    joinPath (joinPath (joinPath o.dir ".jx") "gitops") "source-config.yaml"
  else o.configFile

/-- The `--out` default of `Validate`: `<dir>/jenkins`. -/
def resolveOutDir (o : Options) : String :=
  if o.outDir = "" then joinPath o.dir "jenkins" else o.outDir

/-- External collaborator: `yamls.LoadFile`, parsing the configuration
file contents into a `SourceConfig`. -/
abbrev ParseFn := String → Except String SourceConfig

/-- External collaborator: `sourceconfigs.DefaultValues`, which copies
group-level defaults onto a repository (mutating both through pointers);
modelled as returning the updated group and repository. -/
abbrev DefaultFn := SourceConfig → RepositoryGroup → Repository → RepositoryGroup × Repository

/-- External collaborator: `templater.Evaluate` applied to the sprig
function map; arguments are the template data, the template text, the
template file name and the context name. -/
abbrev EvalFn := List (String × String) → String → String → String → Except String String

/-- The `Options.Validate` method of `jobs.go`: resolve the config file
and output directory defaults; if the config file does not exist return
success with the zero configuration; otherwise check the
`--default-xml-template` path when set, then load the configuration. -/
def validate (pc : ParseFn) (o : Options) (fs : TextFS) : Except String ResolvedOptions :=
  let configFile := resolveConfigFile o
  let outDir := resolveOutDir o
  match fs.lookup configFile with
  | none => .ok ⟨o.dir, configFile, outDir, o.defaultXmlTemplate, ⟨[]⟩⟩
  | some content =>
    if o.defaultXmlTemplate ≠ "" ∧ fs.lookup o.defaultXmlTemplate = none then
      .error ("the default-xml-template file " ++ o.defaultXmlTemplate ++ " does not exist")
    else
      match pc content with
      | .error e => .error ("failed to load file " ++ configFile ++ ": " ++ e)
      | .ok cfg => .ok ⟨o.dir, configFile, outDir, o.defaultXmlTemplate, cfg⟩

/-- The template data literal of `processJenkinsConfig`, with exactly the
seven keys of the Go map literal, sourced from the (defaulted) group and
repository. -/
def mkTemplateData (g : RepositoryGroup) (r : Repository) : List (String × String) :=
  [("Owner", g.owner),
   ("GitServerURL", g.provider),
   ("GitKind", g.providerKind),
   ("GitName", g.providerName),
   ("Repository", r.name),
   ("URL", r.url),
   ("CloneURL", r.httpCloneURL)]

/-- The `JenkinsServers` accumulator `map[string][]*JenkinsTemplateConfig`,
modelled as an association list in first-insertion order; appending keeps
insertion order within each server's list. -/
abbrev ServersMap := List (String × List JenkinsTemplateConfig)

/-- The append `o.JenkinsServers[server] = append(o.JenkinsServers[server], c)`. -/
def addServer (s : String) (c : JenkinsTemplateConfig) : ServersMap → ServersMap
  | [] => [(s, [c])]
  | (s', l) :: rest =>
    if s' = s then (s', l ++ [c]) :: rest
    else (s', l) :: addServer s c rest

/-- The `Options.processJenkinsConfig` method of `jobs.go` for one
repository: skip on empty server; resolve the template path (repository
override joined with the working directory and checked for existence,
else the run-wide default used verbatim); skip on an empty resolved
path; read the template; append the `JenkinsTemplateConfig`. -/
def processJenkinsConfig (o : ResolvedOptions) (fs : TextFS)
    (g : RepositoryGroup) (r : Repository) (jc : JenkinsConfig)
    (servers : ServersMap) : Except String ServersMap :=
  if jc.server = "" then .ok servers
  else
    let step : Except String String :=
      if jc.xmlTemplate ≠ "" then
        let xt := joinPath o.dir jc.xmlTemplate
        if fs.lookup xt = none then
          .error ("the xmlTemplate file " ++ xt ++ " does not exist")
        else .ok xt
      else .ok o.defaultXmlTemplate
    match step with
    | .error e => .error e
    | .ok xt =>
      if xt = "" then .ok servers
      else
        match fs.lookup xt with
        | none => .error ("failed to load file " ++ xt)
        | some text =>
          .ok (addServer jc.server
            ⟨jc.server, r.name, xt, text, mkTemplateData g r⟩ servers)

/-- The inner loop body of `Options.Run`: `DefaultValues` has already
been applied (the pair holds the defaulted group and repository); a `nil`
Jenkins configuration is skipped, otherwise `processJenkinsConfig` runs
and its error is wrapped. -/
def stepRepo (o : ResolvedOptions) (fs : TextFS) (servers : ServersMap)
    (p : RepositoryGroup × Repository) : Except String ServersMap :=
  match p.2.jenkins with
  | none => .ok servers
  | some jc =>
    match processJenkinsConfig o fs p.1 p.2 jc servers with
    | .error e => .error ("failed to process Jenkins Config: " ++ e)
    | .ok s' => .ok s'

/-- The sequence of (group, repository) pairs visited by the nested loop
of `Options.Run`, after `sourceconfigs.DefaultValues(config, group, repo)`
has been applied to each; the group state mutated by the defaulting step
is threaded through the repositories of the same group. -/
def threadRepos (dv : DefaultFn) (cfg : SourceConfig) :
    RepositoryGroup → List Repository → List (RepositoryGroup × Repository)
  | _, [] => []
  | g, r :: rs =>
    let p := dv cfg g r
    p :: threadRepos dv cfg p.1 rs

/-- All (defaulted group, defaulted repository) pairs of the run, in
processing order. -/
def defaultedPairs (dv : DefaultFn) (cfg : SourceConfig) :
    List (RepositoryGroup × Repository) :=
  (cfg.groups.map (fun g => threadRepos dv cfg g g.repositories)).flatten

/-- The first loop of `Options.Run`: accumulate `JenkinsServers` over all
groups and repositories, starting from the empty map. -/
def collectServers (dv : DefaultFn) (o : ResolvedOptions) (fs : TextFS) :
    Except String ServersMap :=
  (defaultedPairs dv o.sourceConfig).foldlM (stepRepo o fs) []

/-! ### Rendering and writing (`Options.Run`, second loop) -/

/-- Structured view of a YAML value, used for the marshalled
`values.yaml` contents (`yaml.Marshal` itself is an external
serializer; the written value is kept structured). -/
inductive YVal where
  | str : String → YVal
  | map : List (String × YVal) → YVal

/-- One template evaluation `templater.Evaluate(funcMap, data, text,
file, "Jenkins Server "+server)`. -/
def renderOf (ev : EvalFn) (server : String) (c : JenkinsTemplateConfig) : Except String String :=
  ev c.templateData c.xmlTemplateText c.xmlTemplateFile ("Jenkins Server " ++ server)

/-- The Go map assignment `jobs[key] = output`: replace the entry when
the key is present, append it otherwise. -/
def mapSet (k v : String) : List (String × String) → List (String × String)
  | [] => [(k, v)]
  | (k', v') :: rest =>
    if k' = k then (k', v) :: rest
    else (k', v') :: mapSet k v rest

/-- The inner rendering loop for one server: evaluate every config in
order into the `jobs` map; an evaluation failure aborts with the wrapped
template path. -/
def renderServer (ev : EvalFn) (server : String) :
    List JenkinsTemplateConfig → List (String × String) →
      Except String (List (String × String))
  | [], jobs => .ok jobs
  | c :: cs, jobs =>
    match renderOf ev server c with
    | .error e => .error ("failed to evaluate template " ++ c.xmlTemplateFile ++ ": " ++ e)
    | .ok out => renderServer ev server cs (mapSet c.key out jobs)

/-- The wrapper `values := {"master": {"jobs": jobs}}` of `Options.Run`. -/
def wrapValues (jobs : List (String × String)) : YVal :=
  .map [("master", .map [("jobs", .map (jobs.map (fun kv => (kv.1, YVal.str kv.2))))])]

/-- The output path `filepath.Join(o.OutDir, server)` + `values.yaml`. -/
def valuesPath (outDir server : String) : String :=
  joinPath (joinPath outDir server) "values.yaml"

/-- The second loop of `Options.Run`: for each server render its jobs,
wrap and write `<outDir>/<server>/values.yaml`.  The result is the list
of writes (path, value); on a fatal error the writes performed before the
error are reported alongside it, matching the design note that files
written before a failure remain on disk. -/
def writeServers (ev : EvalFn) (outDir : String) :
    ServersMap → Except (String × List (String × YVal)) (List (String × YVal))
  | [] => .ok []
  | (s, cfgs) :: rest =>
    match renderServer ev s cfgs [] with
    | .error e => .error (e, [])
    | .ok jobs =>
      let w := (valuesPath outDir s, wrapValues jobs)
      match writeServers ev outDir rest with
      | .error r => .error (r.1, w :: r.2)
      | .ok ws => .ok (w :: ws)

/-- The `Options.Run` method of `jobs.go`: validate, process every
repository of every group (after defaulting), then write one
`values.yaml` per server.  Errors carry the writes performed before the
failure (none for validation or processing errors). -/
def runJobs (pc : ParseFn) (dv : DefaultFn) (ev : EvalFn) (o : Options)
    (fs : TextFS) : Except (String × List (String × YVal)) (List (String × YVal)) :=
  match validate pc o fs with
  | .error e => .error ("failed to validate options: " ++ e, [])
  | .ok ro =>
    match collectServers dv ro fs with
    | .error e => .error (e, [])
    | .ok servers => writeServers ev ro.outDir servers

/-! ### Generic helpers for `Except` folds -/

theorem except_bind_ok {α β : Type} (x : Except String α) (f : α → Except String β)
    (b : β) (h : (x >>= f) = .ok b) : ∃ a, x = .ok a ∧ f a = .ok b := by
  cases x with
  | error e =>
    rw [show ((Except.error e : Except String α) >>= f) = .error e from rfl] at h
    exact absurd h (by simp)
  | ok a =>
    rw [show ((Except.ok a : Except String α) >>= f) = f a from rfl] at h
    exact ⟨a, rfl, h⟩

theorem foldlM_preserve {α : Type} (step : ServersMap → α → Except String ServersMap)
    (P : ServersMap → Prop) (l : List α)
    (hstep : ∀ a ∈ l, ∀ m m', P m → step m a = .ok m' → P m') :
    ∀ acc res, P acc → l.foldlM step acc = .ok res → P res := by
  induction l with
  | nil =>
    intro acc res hacc h
    rw [show List.foldlM step acc [] = .ok acc from rfl] at h
    have : acc = res := by injection h
    exact this ▸ hacc
  | cons x xs ih =>
    intro acc res hacc h
    rw [List.foldlM_cons] at h
    obtain ⟨m', h1, h2⟩ := except_bind_ok _ _ _ h
    exact ih (fun a ha => hstep a (List.mem_cons_of_mem x ha)) m' res
      (hstep x (List.mem_cons_self x xs) acc m' hacc h1) h2

theorem foldlM_error_of_mem {α : Type} (step : ServersMap → α → Except String ServersMap)
    (l : List α) (x : α) (hx : x ∈ l)
    (hstep : ∀ m, ∃ e, step m x = .error e) :
    ∀ acc, ∃ e, l.foldlM step acc = .error e := by
  induction l with
  | nil => exact absurd hx (List.not_mem_nil x)
  | cons y ys ih =>
    intro acc
    rw [List.foldlM_cons]
    rcases List.mem_cons.mp hx with rfl | hx2
    · obtain ⟨e, he⟩ := hstep acc
      rw [he]
      exact ⟨e, rfl⟩
    · cases hy : step acc y with
      | error e => exact ⟨e, rfl⟩
      | ok m' =>
        obtain ⟨e, he⟩ := ih hx2 m'
        exact ⟨e, he⟩

/-! ### Properties of `addServer` -/

theorem addServer_mem (s : String) (c : JenkinsTemplateConfig) (m : ServersMap) :
    ∀ e ∈ addServer s c m, ∀ x ∈ e.2, (∃ e' ∈ m, x ∈ e'.2) ∨ x = c := by
  induction m with
  | nil =>
    intro e he x hx
    rw [show addServer s c [] = [(s, [c])] from rfl, List.mem_singleton] at he
    subst he
    rw [List.mem_singleton] at hx
    exact Or.inr hx
  | cons a rest ih =>
    obtain ⟨s', l⟩ := a
    intro e he x hx
    unfold addServer at he
    by_cases hs : s' = s
    · rw [if_pos hs] at he
      rcases List.mem_cons.mp he with rfl | he2
      · rcases List.mem_append.mp hx with hx1 | hx2
        · exact Or.inl ⟨(s', l), List.mem_cons_self _ _, hx1⟩
        · exact Or.inr (List.mem_singleton.mp hx2)
      · exact Or.inl ⟨e, List.mem_cons_of_mem _ he2, hx⟩
    · rw [if_neg hs] at he
      rcases List.mem_cons.mp he with rfl | he2
      · exact Or.inl ⟨(s', l), List.mem_cons_self _ _, hx⟩
      · rcases ih e he2 x hx with ⟨e', he', hx'⟩ | hxc
        · exact Or.inl ⟨e', List.mem_cons_of_mem _ he', hx'⟩
        · exact Or.inr hxc

theorem addServer_keys (s : String) (c : JenkinsTemplateConfig) (m : ServersMap) :
    (addServer s c m).map Prod.fst =
      if s ∈ m.map Prod.fst then m.map Prod.fst else m.map Prod.fst ++ [s] := by
  induction m with
  | nil => simp [addServer]
  | cons a rest ih =>
    obtain ⟨s', l⟩ := a
    unfold addServer
    by_cases hs : s' = s
    · subst hs
      simp
    · rw [if_neg hs]
      by_cases hmem : s ∈ rest.map Prod.fst
      · simp only [List.map_cons, ih, if_pos hmem]
        rw [if_pos]
        simp [hmem]
      · have hns : s ∉ (s' :: rest.map Prod.fst) := by
          intro hmem2
          rcases List.mem_cons.mp hmem2 with heq | hmem3
          · exact hs heq.symm
          · exact hmem hmem3
        simp only [List.map_cons, ih, if_neg hmem]
        rw [if_neg (by simpa using hns)]
        simp

theorem addServer_nodup (s : String) (c : JenkinsTemplateConfig) (m : ServersMap)
    (h : (m.map Prod.fst).Nodup) : ((addServer s c m).map Prod.fst).Nodup := by
  rw [addServer_keys]
  by_cases hmem : s ∈ m.map Prod.fst
  · rwa [if_pos hmem]
  · rw [if_neg hmem]
    rw [List.nodup_append]
    exact ⟨h, List.nodup_singleton s, by simpa [List.disjoint_right] using hmem⟩

theorem addServer_keys_ne (s : String) (c : JenkinsTemplateConfig) (m : ServersMap)
    (hs : s ≠ "") (h : ∀ e ∈ m, e.1 ≠ "") : ∀ e ∈ addServer s c m, e.1 ≠ "" := by
  induction m with
  | nil =>
    intro e he
    rw [show addServer s c [] = [(s, [c])] from rfl, List.mem_singleton] at he
    subst he
    exact hs
  | cons a rest ih =>
    obtain ⟨s', l⟩ := a
    intro e he
    unfold addServer at he
    by_cases hss : s' = s
    · rw [if_pos hss] at he
      rcases List.mem_cons.mp he with rfl | he2
      · exact hss ▸ hs
      · exact h e (List.mem_cons_of_mem _ he2)
    · rw [if_neg hss] at he
      rcases List.mem_cons.mp he with rfl | he2
      · exact h (s', l) (List.mem_cons_self _ _)
      · exact ih (fun e' he' => h e' (List.mem_cons_of_mem _ he')) e he2

/-! ### Case equations for `processJenkinsConfig` -/

theorem data_ne_nil_of_ne_empty (s : String) (h : s ≠ "") : s.data ≠ [] := by
  intro hd
  exact h (String.ext hd)

theorem joinPath_ne_empty (a b : String) (hb : b ≠ "") : joinPath a b ≠ "" := by
  unfold joinPath
  by_cases ha : a = ""
  · simpa [ha]
  · rw [if_neg ha, if_neg hb]
    by_cases hsuf : strHasSuffix a "/" = true
    · rw [if_pos hsuf]
      intro h
      have hd := congrArg String.data h
      rw [data_append] at hd
      exact data_ne_nil_of_ne_empty a ha (List.append_eq_nil.mp hd).1
    · rw [if_neg hsuf]
      intro h
      have hd := congrArg String.data h
      rw [data_append, data_append] at hd
      exact data_ne_nil_of_ne_empty a ha
        (List.append_eq_nil.mp (List.append_eq_nil.mp hd).1).1

theorem process_skip_server (o : ResolvedOptions) (fs : TextFS)
    (g : RepositoryGroup) (r : Repository) (jc : JenkinsConfig)
    (servers : ServersMap) (h : jc.server = "") :
    processJenkinsConfig o fs g r jc servers = .ok servers := by
  unfold processJenkinsConfig
  rw [if_pos h]

theorem process_skip_empty_template (o : ResolvedOptions) (fs : TextFS)
    (g : RepositoryGroup) (r : Repository) (jc : JenkinsConfig)
    (servers : ServersMap) (hs : jc.server ≠ "") (hx : jc.xmlTemplate = "")
    (hd : o.defaultXmlTemplate = "") :
    processJenkinsConfig o fs g r jc servers = .ok servers := by
  unfold processJenkinsConfig
  rw [if_neg hs]
  simp [hx, hd]

theorem process_missing_repo_template (o : ResolvedOptions) (fs : TextFS)
    (g : RepositoryGroup) (r : Repository) (jc : JenkinsConfig)
    (servers : ServersMap) (hs : jc.server ≠ "") (hx : jc.xmlTemplate ≠ "")
    (hlook : fs.lookup (joinPath o.dir jc.xmlTemplate) = none) :
    processJenkinsConfig o fs g r jc servers =
      .error ("the xmlTemplate file " ++ joinPath o.dir jc.xmlTemplate ++
        " does not exist") := by
  unfold processJenkinsConfig
  rw [if_neg hs]
  simp [hx, hlook]

theorem process_repo_template (o : ResolvedOptions) (fs : TextFS)
    (g : RepositoryGroup) (r : Repository) (jc : JenkinsConfig)
    (servers : ServersMap) (text : String)
    (hs : jc.server ≠ "") (hx : jc.xmlTemplate ≠ "")
    (hlook : fs.lookup (joinPath o.dir jc.xmlTemplate) = some text) :
    processJenkinsConfig o fs g r jc servers =
      .ok (addServer jc.server
        ⟨jc.server, r.name, joinPath o.dir jc.xmlTemplate, text, mkTemplateData g r⟩
        servers) := by
  unfold processJenkinsConfig
  rw [if_neg hs]
  have hne : joinPath o.dir jc.xmlTemplate ≠ "" := joinPath_ne_empty _ _ hx
  simp [hx, hlook, hne]

theorem process_default_template (o : ResolvedOptions) (fs : TextFS)
    (g : RepositoryGroup) (r : Repository) (jc : JenkinsConfig)
    (servers : ServersMap) (text : String)
    (hs : jc.server ≠ "") (hx : jc.xmlTemplate = "")
    (hd : o.defaultXmlTemplate ≠ "")
    (hlook : fs.lookup o.defaultXmlTemplate = some text) :
    processJenkinsConfig o fs g r jc servers =
      .ok (addServer jc.server
        ⟨jc.server, r.name, o.defaultXmlTemplate, text, mkTemplateData g r⟩
        servers) := by
  unfold processJenkinsConfig
  rw [if_neg hs]
  simp [hx, hd, hlook]

/-- Inversion of a successful `processJenkinsConfig`: either the map is
unchanged (a skip) or exactly one new config was appended, built from the
(defaulted) group and repository with a non-empty server. -/
theorem process_ok_cases (o : ResolvedOptions) (fs : TextFS)
    (g : RepositoryGroup) (r : Repository) (jc : JenkinsConfig)
    (servers s' : ServersMap)
    (h : processJenkinsConfig o fs g r jc servers = .ok s') :
    s' = servers ∨
      (jc.server ≠ "" ∧ ∃ xt text, fs.lookup xt = some text ∧
        s' = addServer jc.server
          ⟨jc.server, r.name, xt, text, mkTemplateData g r⟩ servers) := by
  by_cases hs : jc.server = ""
  · rw [process_skip_server o fs g r jc servers hs] at h
    left
    injection h with h2
    exact h2.symm
  · by_cases hx : jc.xmlTemplate = ""
    · by_cases hd : o.defaultXmlTemplate = ""
      · rw [process_skip_empty_template o fs g r jc servers hs hx hd] at h
        left
        injection h with h2
        exact h2.symm
      · cases hlook : fs.lookup o.defaultXmlTemplate with
        | none =>
          unfold processJenkinsConfig at h
          rw [if_neg hs] at h
          simp [hx, hd, hlook] at h
        | some text =>
          rw [process_default_template o fs g r jc servers text hs hx hd hlook] at h
          injection h with h2
          exact Or.inr ⟨hs, o.defaultXmlTemplate, text, hlook, h2.symm⟩
    · cases hlook : fs.lookup (joinPath o.dir jc.xmlTemplate) with
      | none =>
        rw [process_missing_repo_template o fs g r jc servers hs hx hlook] at h
        exact absurd h (by simp)
      | some text =>
        rw [process_repo_template o fs g r jc servers text hs hx hlook] at h
        injection h with h2
        exact Or.inr ⟨hs, joinPath o.dir jc.xmlTemplate, text, hlook, h2.symm⟩

/-! ### The repository step and the collection invariants -/

theorem stepRepo_none (o : ResolvedOptions) (fs : TextFS) (servers : ServersMap)
    (g : RepositoryGroup) (r : Repository) (h : r.jenkins = none) :
    stepRepo o fs servers (g, r) = .ok servers := by
  unfold stepRepo
  rw [h]

theorem stepRepo_some (o : ResolvedOptions) (fs : TextFS) (servers : ServersMap)
    (g : RepositoryGroup) (r : Repository) (jc : JenkinsConfig)
    (h : r.jenkins = some jc) :
    stepRepo o fs servers (g, r) =
      match processJenkinsConfig o fs g r jc servers with
      | .error e => .error ("failed to process Jenkins Config: " ++ e)
      | .ok s' => .ok s' := by
  unfold stepRepo
  rw [h]

theorem stepRepo_ok_cases (o : ResolvedOptions) (fs : TextFS)
    (g : RepositoryGroup) (r : Repository) (m m' : ServersMap)
    (h : stepRepo o fs m (g, r) = .ok m') :
    m' = m ∨ ∃ jc, r.jenkins = some jc ∧ jc.server ≠ "" ∧ ∃ xt text,
      fs.lookup xt = some text ∧
      m' = addServer jc.server ⟨jc.server, r.name, xt, text, mkTemplateData g r⟩ m := by
  cases hj : r.jenkins with
  | none =>
    rw [stepRepo_none o fs m g r hj] at h
    left
    injection h with h2
    exact h2.symm
  | some jc =>
    rw [stepRepo_some o fs m g r jc hj] at h
    cases hp : processJenkinsConfig o fs g r jc m with
    | error e =>
      rw [hp] at h
      exact absurd h (by simp)
    | ok s' =>
      rw [hp] at h
      have h2 : s' = m' := by injection h
      rcases process_ok_cases o fs g r jc m s' hp with h3 | ⟨hs, xt, text, hlook, h4⟩
      · left
        exact h2 ▸ h3
      · right
        exact ⟨jc, rfl, hs, xt, text, hlook, h2 ▸ h4⟩

/-- Well-formedness of the accumulated servers map: distinct keys, none
of them empty. -/
def goodKeys (m : ServersMap) : Prop :=
  (m.map Prod.fst).Nodup ∧ ∀ e ∈ m, e.1 ≠ ""

theorem collectServers_goodKeys (dv : DefaultFn) (o : ResolvedOptions)
    (fs : TextFS) (servers : ServersMap)
    (h : collectServers dv o fs = .ok servers) : goodKeys servers := by
  refine foldlM_preserve (stepRepo o fs) goodKeys _ ?_ [] servers
    ⟨List.nodup_nil, by simp⟩ h
  intro a ha m m' hm hstep
  obtain ⟨g, r⟩ := a
  rcases stepRepo_ok_cases o fs g r m m' hstep with heq | ⟨jc, hj, hs, xt, text, hlook, heq⟩
  · exact heq ▸ hm
  · subst heq
    exact ⟨addServer_nodup _ _ _ hm.1, addServer_keys_ne _ _ _ hs hm.2⟩

/-- Property of a `JenkinsTemplateConfig`: it was built from one of the
(defaulted) pairs of the run, with the exact template-data literal. -/
def fromDefaultedPair (dv : DefaultFn) (cfg : SourceConfig)
    (c : JenkinsTemplateConfig) : Prop :=
  ∃ g r jc, (g, r) ∈ defaultedPairs dv cfg ∧ r.jenkins = some jc ∧
    c.server = jc.server ∧ c.key = r.name ∧ c.templateData = mkTemplateData g r

/-- Pointwise property over all configs of a servers map. -/
def serversAll (P : JenkinsTemplateConfig → Prop) (m : ServersMap) : Prop :=
  ∀ e ∈ m, ∀ c ∈ e.2, P c

theorem collectServers_sound (dv : DefaultFn) (o : ResolvedOptions)
    (fs : TextFS) (servers : ServersMap)
    (h : collectServers dv o fs = .ok servers) :
    serversAll (fromDefaultedPair dv o.sourceConfig) servers := by
  refine foldlM_preserve (stepRepo o fs) (serversAll _) _ ?_ [] servers
    (by intro e he; exact absurd he (List.not_mem_nil e)) h
  intro a ha m m' hm hstep
  obtain ⟨g, r⟩ := a
  rcases stepRepo_ok_cases o fs g r m m' hstep with heq | ⟨jc, hj, hs, xt, text, hlook, heq⟩
  · exact heq ▸ hm
  · subst heq
    intro e he c hc
    rcases addServer_mem _ _ _ e he c hc with ⟨e', he', hc'⟩ | heqc
    · exact hm e' he' c hc'
    · subst heqc
      exact ⟨g, r, jc, ha, hj, rfl, rfl, rfl⟩

/-- C4: every `JenkinsTemplateConfig` accumulated by the run carries a
template-data mapping with exactly the seven keys `Owner`,
`GitServerURL`, `GitKind`, `GitName`, `Repository`, `URL`, `CloneURL`,
bound to the group and repository fields read after the
group-to-repository defaulting step. -/
theorem claim_C4_template_data (dv : DefaultFn) (o : ResolvedOptions) (fs : TextFS)
    (servers : ServersMap) (s : String) (l : List JenkinsTemplateConfig)
    (c : JenkinsTemplateConfig)
    (hc : collectServers dv o fs = .ok servers)
    (hs : (s, l) ∈ servers) (hcl : c ∈ l) :
    ∃ g r jc, (g, r) ∈ defaultedPairs dv o.sourceConfig ∧ r.jenkins = some jc ∧
      c.server = jc.server ∧ c.key = r.name ∧
      c.templateData =
        [("Owner", g.owner), ("GitServerURL", g.provider),
         ("GitKind", g.providerKind), ("GitName", g.providerName),
         ("Repository", r.name), ("URL", r.url), ("CloneURL", r.httpCloneURL)] :=
  collectServers_sound dv o fs servers hc (s, l) hs c hcl

/-- Identity defaulting function, for concrete instantiations. -/
def idDv : DefaultFn := fun _ g r => (g, r)

/-- Concrete source configuration for the C4 witness: one group, one
repository built on server `ci` with the default template. -/
def c4Cfg : SourceConfig :=
  ⟨[⟨"own", "prov", "pk", "pn", [⟨"app", "u", "cu", some ⟨"ci", ""⟩⟩]⟩]⟩

/-- Concrete template config accumulated for the C4 witness. -/
def c4Jtc : JenkinsTemplateConfig :=
  ⟨"ci", "app", "t.xml", "T",
   [("Owner", "own"), ("GitServerURL", "prov"), ("GitKind", "pk"),
    ("GitName", "pn"), ("Repository", "app"), ("URL", "u"), ("CloneURL", "cu")]⟩

theorem claim_C4_template_data_witness :
    ∃ g r jc, (g, r) ∈ defaultedPairs idDv c4Cfg ∧ r.jenkins = some jc ∧
      c4Jtc.server = jc.server ∧ c4Jtc.key = r.name ∧
      c4Jtc.templateData =
        [("Owner", g.owner), ("GitServerURL", g.provider),
         ("GitKind", g.providerKind), ("GitName", g.providerName),
         ("Repository", r.name), ("URL", r.url), ("CloneURL", r.httpCloneURL)] :=
  claim_C4_template_data idDv ⟨"", "cfg", "out", "t.xml", c4Cfg⟩ [("t.xml", "T")]
    [("ci", [c4Jtc])] "ci" [c4Jtc] c4Jtc rfl
    (List.mem_singleton.mpr rfl) (List.mem_singleton.mpr rfl)

/-- C6: a repository with no Jenkins configuration is skipped silently;
one with an empty `Server` is skipped; one whose resolved template path
is empty after falling back to the default is skipped — in all three
cases processing returns success and the servers map is unchanged, so
the repository contributes no entry to any server's job mapping. -/
theorem claim_C6_skipped_repositories (o : ResolvedOptions) (fs : TextFS)
    (g : RepositoryGroup) (r : Repository) (servers : ServersMap) :
    (r.jenkins = none → stepRepo o fs servers (g, r) = .ok servers) ∧
    (∀ jc, r.jenkins = some jc → jc.server = "" →
      processJenkinsConfig o fs g r jc servers = .ok servers) ∧
    (∀ jc, r.jenkins = some jc → jc.server ≠ "" → jc.xmlTemplate = "" →
      o.defaultXmlTemplate = "" →
      processJenkinsConfig o fs g r jc servers = .ok servers) := by
  refine ⟨?_, ?_, ?_⟩
  · intro h
    exact stepRepo_none o fs servers g r h
  · intro jc _ hserver
    exact process_skip_server o fs g r jc servers hserver
  · intro jc _ hs hx hd
    exact process_skip_empty_template o fs g r jc servers hs hx hd

theorem claim_C6_skipped_repositories_witness :
    stepRepo ⟨"", "cfg", "out", "", ⟨[]⟩⟩ [] []
        (⟨"o", "p", "k", "n", []⟩, ⟨"r1", "u", "cu", none⟩) = .ok [] ∧
    processJenkinsConfig ⟨"", "cfg", "out", "", ⟨[]⟩⟩ [] ⟨"o", "p", "k", "n", []⟩
        ⟨"r2", "u", "cu", some ⟨"", "x.xml"⟩⟩ ⟨"", "x.xml"⟩ [] = .ok [] ∧
    processJenkinsConfig ⟨"", "cfg", "out", "", ⟨[]⟩⟩ [] ⟨"o", "p", "k", "n", []⟩
        ⟨"r3", "u", "cu", some ⟨"ci", ""⟩⟩ ⟨"ci", ""⟩ [] = .ok [] :=
  ⟨(claim_C6_skipped_repositories _ _ _ _ _).1 rfl,
   (claim_C6_skipped_repositories _ _ _ _ _).2.1 ⟨"", "x.xml"⟩ rfl rfl,
   (claim_C6_skipped_repositories _ _ _ _ _).2.2 ⟨"ci", ""⟩ rfl (by decide) rfl rfl⟩

/-! ### Case equations for `validate` -/

theorem validate_missing_config (pc : ParseFn) (opt : Options) (fs : TextFS)
    (hc : fs.lookup (resolveConfigFile opt) = none) :
    validate pc opt fs =
      .ok ⟨opt.dir, resolveConfigFile opt, resolveOutDir opt,
        opt.defaultXmlTemplate, ⟨[]⟩⟩ := by
  simp only [validate]
  rw [hc]

theorem validate_missing_default (pc : ParseFn) (opt : Options) (fs : TextFS)
    (content : String)
    (hc : fs.lookup (resolveConfigFile opt) = some content)
    (hd : opt.defaultXmlTemplate ≠ "")
    (hl : fs.lookup opt.defaultXmlTemplate = none) :
    validate pc opt fs =
      .error ("the default-xml-template file " ++ opt.defaultXmlTemplate ++
        " does not exist") := by
  simp only [validate]
  rw [hc]
  dsimp only
  rw [if_pos ⟨hd, hl⟩]

theorem validate_ok_parse (pc : ParseFn) (opt : Options) (fs : TextFS)
    (content : String) (cfg : SourceConfig)
    (hc : fs.lookup (resolveConfigFile opt) = some content)
    (hnd : ¬(opt.defaultXmlTemplate ≠ "" ∧ fs.lookup opt.defaultXmlTemplate = none))
    (hp : pc content = .ok cfg) :
    validate pc opt fs =
      .ok ⟨opt.dir, resolveConfigFile opt, resolveOutDir opt,
        opt.defaultXmlTemplate, cfg⟩ := by
  simp only [validate]
  rw [hc]
  dsimp only
  rw [if_neg hnd, hp]

/-- C9: template-path resolution is asymmetric.  A non-empty
per-repository `XmlTemplate` is joined with the working directory before
the existence check and the read, and the appended config records the
joined path; an empty `XmlTemplate` falls back to the
`--default-xml-template` path used verbatim, both in
`processJenkinsConfig` (the read) and in `Validate` (the existence
check), so a relative default path is not resolved against `--dir`. -/
theorem claim_C9_asymmetric_template_paths (o : ResolvedOptions) (fs : TextFS)
    (g : RepositoryGroup) (r : Repository) (jc : JenkinsConfig)
    (servers : ServersMap) (pc : ParseFn) (opt : Options) :
    (jc.server ≠ "" → jc.xmlTemplate ≠ "" →
      fs.lookup (joinPath o.dir jc.xmlTemplate) = none →
      processJenkinsConfig o fs g r jc servers =
        .error ("the xmlTemplate file " ++ joinPath o.dir jc.xmlTemplate ++
          " does not exist")) ∧
    (∀ text, jc.server ≠ "" → jc.xmlTemplate ≠ "" →
      fs.lookup (joinPath o.dir jc.xmlTemplate) = some text →
      processJenkinsConfig o fs g r jc servers =
        .ok (addServer jc.server
          ⟨jc.server, r.name, joinPath o.dir jc.xmlTemplate, text,
           mkTemplateData g r⟩ servers)) ∧
    (∀ text, jc.server ≠ "" → jc.xmlTemplate = "" → o.defaultXmlTemplate ≠ "" →
      fs.lookup o.defaultXmlTemplate = some text →
      processJenkinsConfig o fs g r jc servers =
        .ok (addServer jc.server
          ⟨jc.server, r.name, o.defaultXmlTemplate, text,
           mkTemplateData g r⟩ servers)) ∧
    (∀ content, fs.lookup (resolveConfigFile opt) = some content →
      opt.defaultXmlTemplate ≠ "" → fs.lookup opt.defaultXmlTemplate = none →
      validate pc opt fs =
        .error ("the default-xml-template file " ++ opt.defaultXmlTemplate ++
          " does not exist")) := by
  refine ⟨?_, ?_, ?_, ?_⟩
  · intro hs hx hlook
    exact process_missing_repo_template o fs g r jc servers hs hx hlook
  · intro text hs hx hlook
    exact process_repo_template o fs g r jc servers text hs hx hlook
  · intro text hs hx hd hlook
    exact process_default_template o fs g r jc servers text hs hx hd hlook
  · intro content hc hd hl
    exact validate_missing_default pc opt fs content hc hd hl

theorem claim_C9_asymmetric_template_paths_witness :
    processJenkinsConfig ⟨"d", "cfg", "out", "def.xml", ⟨[]⟩⟩
        [("d/rel.xml", "R"), ("def.xml", "D")] ⟨"o", "p", "k", "n", []⟩
        ⟨"app", "u", "cu", some ⟨"ci", "missing.xml"⟩⟩ ⟨"ci", "missing.xml"⟩ [] =
      .error "the xmlTemplate file d/missing.xml does not exist" ∧
    processJenkinsConfig ⟨"d", "cfg", "out", "def.xml", ⟨[]⟩⟩
        [("d/rel.xml", "R"), ("def.xml", "D")] ⟨"o", "p", "k", "n", []⟩
        ⟨"app", "u", "cu", some ⟨"ci", "rel.xml"⟩⟩ ⟨"ci", "rel.xml"⟩ [] =
      .ok [("ci", [⟨"ci", "app", "d/rel.xml", "R",
        mkTemplateData ⟨"o", "p", "k", "n", []⟩ ⟨"app", "u", "cu",
          some ⟨"ci", "rel.xml"⟩⟩⟩])] ∧
    processJenkinsConfig ⟨"d", "cfg", "out", "def.xml", ⟨[]⟩⟩
        [("d/rel.xml", "R"), ("def.xml", "D")] ⟨"o", "p", "k", "n", []⟩
        ⟨"app", "u", "cu", some ⟨"ci", ""⟩⟩ ⟨"ci", ""⟩ [] =
      .ok [("ci", [⟨"ci", "app", "def.xml", "D",
        mkTemplateData ⟨"o", "p", "k", "n", []⟩ ⟨"app", "u", "cu",
          some ⟨"ci", ""⟩⟩⟩])] ∧
    validate (fun _ => .ok ⟨[]⟩) ⟨"d", "cfg", "out", "nope.xml"⟩ [("cfg", "C")] =
      .error "the default-xml-template file nope.xml does not exist" := by
  refine ⟨?_, ?_, ?_, ?_⟩
  · exact (claim_C9_asymmetric_template_paths ⟨"d", "cfg", "out", "def.xml", ⟨[]⟩⟩
      [("d/rel.xml", "R"), ("def.xml", "D")] ⟨"o", "p", "k", "n", []⟩
      ⟨"app", "u", "cu", some ⟨"ci", "missing.xml"⟩⟩ ⟨"ci", "missing.xml"⟩ []
      (fun _ => .ok ⟨[]⟩) ⟨"d", "cfg", "out", "nope.xml"⟩).1 (by decide) (by decide) rfl
  · exact (claim_C9_asymmetric_template_paths ⟨"d", "cfg", "out", "def.xml", ⟨[]⟩⟩
      [("d/rel.xml", "R"), ("def.xml", "D")] ⟨"o", "p", "k", "n", []⟩
      ⟨"app", "u", "cu", some ⟨"ci", "rel.xml"⟩⟩ ⟨"ci", "rel.xml"⟩ []
      (fun _ => .ok ⟨[]⟩) ⟨"d", "cfg", "out", "nope.xml"⟩).2.1 "R" (by decide) (by decide) rfl
  · exact (claim_C9_asymmetric_template_paths ⟨"d", "cfg", "out", "def.xml", ⟨[]⟩⟩
      [("d/rel.xml", "R"), ("def.xml", "D")] ⟨"o", "p", "k", "n", []⟩
      ⟨"app", "u", "cu", some ⟨"ci", ""⟩⟩ ⟨"ci", ""⟩ []
      (fun _ => .ok ⟨[]⟩) ⟨"d", "cfg", "out", "nope.xml"⟩).2.2.1 "D" (by decide) rfl (by decide) rfl
  · exact (claim_C9_asymmetric_template_paths ⟨"d", "cfg", "out", "def.xml", ⟨[]⟩⟩
      [("cfg", "C")] ⟨"o", "p", "k", "n", []⟩
      ⟨"app", "u", "cu", some ⟨"ci", ""⟩⟩ ⟨"ci", ""⟩ []
      (fun _ => .ok ⟨[]⟩) ⟨"d", "cfg", "out", "nope.xml"⟩).2.2.2 "C" rfl (by decide) rfl

/-- C8: when the source configuration file does not exist at its
resolved path, the run returns success with no output writes: the loader
proceeds with the zero configuration and the processing and writing
loops have nothing to do. -/
theorem claim_C8_missing_config_success (pc : ParseFn) (dv : DefaultFn) (ev : EvalFn)
    (o : Options) (fs : TextFS)
    (h : fs.lookup (resolveConfigFile o) = none) :
    runJobs pc dv ev o fs = .ok [] := by
  unfold runJobs
  rw [validate_missing_config pc o fs h]
  rfl

theorem claim_C8_missing_config_success_witness :
    runJobs (fun _ => .ok ⟨[]⟩) idDv (fun _ text _ _ => .ok text)
      ⟨"", "cfg.yaml", "out", ""⟩ [] = .ok [] :=
  claim_C8_missing_config_success (fun _ => .ok ⟨[]⟩) idDv
    (fun _ text _ _ => .ok text) ⟨"", "cfg.yaml", "out", ""⟩ [] rfl

/-- C1 (amended): when the source configuration file exists at its
resolved path, a `--default-xml-template` flag naming a nonexistent path
makes the run fail during validation, and a processed repository (non-nil
Jenkins configuration, non-empty server) whose non-empty `XmlTemplate`
joins with the working directory to a nonexistent path makes the run
fail during processing; in both cases the error is returned with no
values.yaml write performed. -/
theorem claim_C1_missing_template_fails_amended (pc : ParseFn) (dv : DefaultFn)
    (ev : EvalFn) (o : Options) (fs : TextFS) :
    (∀ content, fs.lookup (resolveConfigFile o) = some content →
      o.defaultXmlTemplate ≠ "" → fs.lookup o.defaultXmlTemplate = none →
      ∃ e, runJobs pc dv ev o fs = .error (e, [])) ∧
    (∀ content cfg g r jc, fs.lookup (resolveConfigFile o) = some content →
      pc content = .ok cfg → (g, r) ∈ defaultedPairs dv cfg →
      r.jenkins = some jc → jc.server ≠ "" → jc.xmlTemplate ≠ "" →
      fs.lookup (joinPath o.dir jc.xmlTemplate) = none →
      ∃ e, runJobs pc dv ev o fs = .error (e, [])) := by
  constructor
  · intro content hc hd hl
    refine ⟨"failed to validate options: " ++ ("the default-xml-template file " ++
      o.defaultXmlTemplate ++ " does not exist"), ?_⟩
    unfold runJobs
    rw [validate_missing_default pc o fs content hc hd hl]
  · intro content cfg g r jc hc hp hmem hj hs hx hlook
    by_cases hnd : o.defaultXmlTemplate ≠ "" ∧ fs.lookup o.defaultXmlTemplate = none
    · refine ⟨"failed to validate options: " ++ ("the default-xml-template file " ++
        o.defaultXmlTemplate ++ " does not exist"), ?_⟩
      unfold runJobs
      rw [validate_missing_default pc o fs content hc hnd.1 hnd.2]
    · have hv := validate_ok_parse pc o fs content cfg hc hnd hp
      have hstep : ∀ m, ∃ e,
          stepRepo ⟨o.dir, resolveConfigFile o, resolveOutDir o,
            o.defaultXmlTemplate, cfg⟩ fs m (g, r) = .error e := by
        intro m
        refine ⟨"failed to process Jenkins Config: " ++ ("the xmlTemplate file " ++
          joinPath o.dir jc.xmlTemplate ++ " does not exist"), ?_⟩
        rw [stepRepo_some _ fs m g r jc hj,
          process_missing_repo_template _ fs g r jc m hs hx hlook]
      obtain ⟨e, he⟩ := foldlM_error_of_mem _ (defaultedPairs dv cfg) (g, r) hmem hstep []
      refine ⟨e, ?_⟩
      unfold runJobs
      rw [hv]
      dsimp only
      have hcoll : collectServers dv ⟨o.dir, resolveConfigFile o, resolveOutDir o,
          o.defaultXmlTemplate, cfg⟩ fs = .error e := he
      rw [hcoll]

theorem claim_C1_missing_template_fails_amended_witness :
    (∃ e, runJobs (fun _ => .ok ⟨[]⟩) idDv (fun _ text _ _ => .ok text)
      ⟨"", "cfg", "out", "missing-default.xml"⟩ [("cfg", "C")] = .error (e, [])) ∧
    (∃ e, runJobs
      (fun _ => .ok ⟨[⟨"o", "p", "k", "n",
        [⟨"app", "u", "cu", some ⟨"ci", "missing.xml"⟩⟩]⟩]⟩)
      idDv (fun _ text _ _ => .ok text)
      ⟨"d", "cfg", "out", ""⟩ [("cfg", "C")] = .error (e, [])) := by
  constructor
  · exact (claim_C1_missing_template_fails_amended (fun _ => .ok ⟨[]⟩) idDv
      (fun _ text _ _ => .ok text) ⟨"", "cfg", "out", "missing-default.xml"⟩
      [("cfg", "C")]).1 "C" rfl (by decide) rfl
  · exact (claim_C1_missing_template_fails_amended
      (fun _ => .ok ⟨[⟨"o", "p", "k", "n",
        [⟨"app", "u", "cu", some ⟨"ci", "missing.xml"⟩⟩]⟩]⟩)
      idDv (fun _ text _ _ => .ok text) ⟨"d", "cfg", "out", ""⟩
      [("cfg", "C")]).2 "C"
      ⟨[⟨"o", "p", "k", "n", [⟨"app", "u", "cu", some ⟨"ci", "missing.xml"⟩⟩]⟩]⟩
      ⟨"o", "p", "k", "n", [⟨"app", "u", "cu", some ⟨"ci", "missing.xml"⟩⟩]⟩
      ⟨"app", "u", "cu", some ⟨"ci", "missing.xml"⟩⟩
      ⟨"ci", "missing.xml"⟩ rfl rfl
      (List.mem_singleton.mpr rfl) rfl (by decide) (by decide) rfl

/-- C1 counterexample: with the source configuration file absent,
`Validate` returns early and never checks the `--default-xml-template`
path, so a run whose flag names a nonexistent template file returns
success (and writes nothing) instead of the claimed error. -/
theorem claim_C1_counterexample :
    List.lookup "t.xml" ([] : TextFS) = none ∧
    runJobs (fun _ => .ok ⟨[]⟩) idDv (fun _ text _ _ => .ok text)
      ⟨"", "cfg.yaml", "out", "t.xml"⟩ [] = .ok [] :=
  ⟨rfl, rfl⟩

/-! ### Properties of the jobs map assembly -/

theorem mapSet_lookup_self (k v : String) (l : List (String × String)) :
    (mapSet k v l).lookup k = some v := by
  induction l with
  | nil => simp [mapSet, List.lookup]
  | cons a rest ih =>
    obtain ⟨k', v'⟩ := a
    unfold mapSet
    by_cases h : k' = k
    · subst h
      simp [List.lookup_cons]
    · rw [if_neg h]
      rw [List.lookup_cons]
      have hbeq : (k == k') = false := by
        rw [beq_eq_false_iff_ne]
        exact fun he => h he.symm
      rw [hbeq]
      exact ih

theorem mapSet_lookup_ne (k v k' : String) (l : List (String × String))
    (h : k' ≠ k) : (mapSet k v l).lookup k' = l.lookup k' := by
  have hbeq : (k' == k) = false := by
    rw [beq_eq_false_iff_ne]
    exact h
  induction l with
  | nil => simp [mapSet, List.lookup_cons, hbeq]
  | cons a rest ih =>
    obtain ⟨k'', v''⟩ := a
    unfold mapSet
    by_cases he : k'' = k
    · subst he
      rw [if_pos rfl, List.lookup_cons, List.lookup_cons, hbeq]
    · rw [if_neg he]
      rw [List.lookup_cons, List.lookup_cons]
      cases hbeq2 : (k' == k'') with
      | true => rfl
      | false => exact ih

theorem mapSet_keys_mem (k v : String) (l : List (String × String)) (k' : String) :
    k' ∈ (mapSet k v l).map Prod.fst ↔ k' = k ∨ k' ∈ l.map Prod.fst := by
  induction l with
  | nil => simp [mapSet]
  | cons a rest ih =>
    obtain ⟨k'', v''⟩ := a
    unfold mapSet
    by_cases h : k'' = k
    · subst h
      rw [if_pos rfl]
      simp only [List.map_cons, List.mem_cons]
      tauto
    · rw [if_neg h]
      simp only [List.map_cons, List.mem_cons, ih]
      tauto

theorem mapSet_nodup (k v : String) (l : List (String × String))
    (h : (l.map Prod.fst).Nodup) : ((mapSet k v l).map Prod.fst).Nodup := by
  induction l with
  | nil => simp [mapSet]
  | cons a rest ih =>
    obtain ⟨k'', v''⟩ := a
    rw [List.map_cons, List.nodup_cons] at h
    unfold mapSet
    by_cases he : k'' = k
    · rw [if_pos he, List.map_cons, List.nodup_cons]
      exact h
    · rw [if_neg he, List.map_cons, List.nodup_cons]
      refine ⟨?_, ih h.2⟩
      intro hmem
      rcases (mapSet_keys_mem k v rest k'').mp hmem with heq | hm
      · exact he heq
      · exact h.1 hm

/-- The config whose rendering wins for a key: the last one in the
server's list carrying that key. -/
def lastWithKey (k : String) : List JenkinsTemplateConfig → Option JenkinsTemplateConfig
  | [] => none
  | c :: cs =>
    match lastWithKey k cs with
    | some c' => some c'
    | none => if c.key = k then some c else none

theorem lastWithKey_isSome_of_mem (k : String) (cfgs : List JenkinsTemplateConfig)
    (c : JenkinsTemplateConfig) (hc : c ∈ cfgs) (hk : c.key = k) :
    ∃ c', lastWithKey k cfgs = some c' := by
  induction cfgs with
  | nil => exact absurd hc (List.not_mem_nil c)
  | cons d ds ih =>
    unfold lastWithKey
    cases hl : lastWithKey k ds with
    | some c' => exact ⟨c', rfl⟩
    | none =>
      rcases List.mem_cons.mp hc with heq | hc2
      · subst heq
        rw [if_pos hk]
        exact ⟨c, rfl⟩
      · obtain ⟨c', hc'⟩ := ih hc2
        rw [hl] at hc'
        exact absurd hc' (by simp)

theorem renderServer_ok_inv (ev : EvalFn) (s : String)
    (cfgs : List JenkinsTemplateConfig) (jobs0 jobs : List (String × String))
    (h : renderServer ev s cfgs jobs0 = .ok jobs) (k : String) :
    (lastWithKey k cfgs = none → jobs.lookup k = jobs0.lookup k) ∧
    (∀ c, lastWithKey k cfgs = some c →
      ∃ out, renderOf ev s c = .ok out ∧ jobs.lookup k = some out) := by
  induction cfgs generalizing jobs0 with
  | nil =>
    have hj : jobs0 = jobs := by
      unfold renderServer at h
      injection h
    subst hj
    constructor
    · intro _
      rfl
    · intro c hc
      exact absurd hc (by simp [lastWithKey])
  | cons c cs ih =>
    unfold renderServer at h
    cases hr : renderOf ev s c with
    | error e =>
      rw [hr] at h
      exact absurd h (by simp)
    | ok out =>
      rw [hr] at h
      dsimp only at h
      have hih := ih (mapSet c.key out jobs0) h
      constructor
      · intro hnone
        unfold lastWithKey at hnone
        cases hl : lastWithKey k cs with
        | some c' =>
          rw [hl] at hnone
          exact absurd hnone (by simp)
        | none =>
          rw [hl] at hnone
          by_cases hkey : c.key = k
          · rw [if_pos hkey] at hnone
            exact absurd hnone (by simp)
          · rw [hih.1 hl]
            exact mapSet_lookup_ne c.key out k jobs0 (fun he => hkey he.symm)
      · intro c' hlast
        unfold lastWithKey at hlast
        cases hl : lastWithKey k cs with
        | some c'' =>
          rw [hl] at hlast
          have hcc : c'' = c' := by injection hlast
          exact hcc ▸ hih.2 c'' hl
        | none =>
          rw [hl] at hlast
          by_cases hkey : c.key = k
          · rw [if_pos hkey] at hlast
            have hcc : c = c' := by injection hlast
            subst hcc
            refine ⟨out, hr, ?_⟩
            rw [hih.1 hl, ← hkey]
            exact mapSet_lookup_self c.key out jobs0
          · rw [if_neg hkey] at hlast
            exact absurd hlast (by simp)

theorem renderServer_ok_keys (ev : EvalFn) (s : String)
    (cfgs : List JenkinsTemplateConfig) (jobs0 jobs : List (String × String))
    (h : renderServer ev s cfgs jobs0 = .ok jobs) :
    ((jobs0.map Prod.fst).Nodup → (jobs.map Prod.fst).Nodup) ∧
    (∀ k, k ∈ jobs.map Prod.fst ↔
      k ∈ jobs0.map Prod.fst ∨ k ∈ cfgs.map JenkinsTemplateConfig.key) := by
  induction cfgs generalizing jobs0 with
  | nil =>
    have hj : jobs0 = jobs := by
      unfold renderServer at h
      injection h
    subst hj
    exact ⟨id, fun k => by simp⟩
  | cons c cs ih =>
    unfold renderServer at h
    cases hr : renderOf ev s c with
    | error e =>
      rw [hr] at h
      exact absurd h (by simp)
    | ok out =>
      rw [hr] at h
      dsimp only at h
      have hih := ih (mapSet c.key out jobs0) h
      constructor
      · intro hnd
        exact hih.1 (mapSet_nodup _ _ _ hnd)
      · intro k
        rw [hih.2 k, mapSet_keys_mem]
        simp only [List.map_cons, List.mem_cons]
        tauto

theorem writeServers_ok_inv (ev : EvalFn) (outDir : String) (m : ServersMap)
    (ws : List (String × YVal)) (h : writeServers ev outDir m = .ok ws) :
    ws.map Prod.fst = m.map (fun e => valuesPath outDir e.1) ∧
    ∀ e ∈ m, ∃ jobs, renderServer ev e.1 e.2 [] = .ok jobs ∧
      (valuesPath outDir e.1, wrapValues jobs) ∈ ws := by
  induction m generalizing ws with
  | nil =>
    have hws : ([] : List (String × YVal)) = ws := by
      unfold writeServers at h
      injection h
    subst hws
    exact ⟨rfl, by simp⟩
  | cons a rest ih =>
    obtain ⟨s, cfgs⟩ := a
    unfold writeServers at h
    cases hr : renderServer ev s cfgs [] with
    | error e =>
      rw [hr] at h
      exact absurd h (by simp)
    | ok jobs =>
      rw [hr] at h
      dsimp only at h
      cases hw : writeServers ev outDir rest with
      | error r =>
        rw [hw] at h
        exact absurd h (by simp)
      | ok ws' =>
        rw [hw] at h
        have hws : (valuesPath outDir s, wrapValues jobs) :: ws' = ws := by
          injection h
        subst hws
        obtain ⟨hmap, hmem⟩ := ih ws' hw
        constructor
        · simp [hmap]
        · intro e he
          rcases List.mem_cons.mp he with heq | he2
          · subst heq
            exact ⟨jobs, hr, List.mem_cons_self _ _⟩
          · obtain ⟨j, hj1, hj2⟩ := hmem e he2
            exact ⟨j, hj1, List.mem_cons_of_mem _ hj2⟩

theorem runJobs_eq_of_phases (pc : ParseFn) (dv : DefaultFn) (ev : EvalFn)
    (o : Options) (fs : TextFS) (ro : ResolvedOptions) (servers : ServersMap)
    (ws : List (String × YVal))
    (hv : validate pc o fs = .ok ro)
    (hc : collectServers dv ro fs = .ok servers)
    (hw : writeServers ev ro.outDir servers = .ok ws) :
    runJobs pc dv ev o fs = .ok ws := by
  unfold runJobs
  rw [hv]
  dsimp only
  rw [hc]
  dsimp only
  exact hw

theorem filter_count_path (ws : List (String × YVal)) (m : ServersMap)
    (outDir s : String)
    (hmap : ws.map Prod.fst = m.map (fun e => valuesPath outDir e.1))
    (hnd : (m.map Prod.fst).Nodup)
    (hinj : ∀ e1 ∈ m, ∀ e2 ∈ m,
      valuesPath outDir e1.1 = valuesPath outDir e2.1 → e1.1 = e2.1)
    (hs : s ∈ m.map Prod.fst) :
    (ws.filter (fun w => decide (w.1 = valuesPath outDir s))).length = 1 := by
  rw [← List.countP_eq_length_filter]
  have h1 : ws.countP (fun w => decide (w.1 = valuesPath outDir s)) =
      (ws.map Prod.fst).countP (fun x => decide (x = valuesPath outDir s)) := by
    rw [List.countP_map]
    rfl
  have h15 : (m.map (fun e => valuesPath outDir e.1)).countP
      (fun x => decide (x = valuesPath outDir s)) =
      m.countP (fun e => decide (valuesPath outDir e.1 = valuesPath outDir s)) := by
    rw [List.countP_map]
    rfl
  rw [h1, hmap, h15]
  have h2 : m.countP (fun e => decide (valuesPath outDir e.1 = valuesPath outDir s)) =
      m.countP (fun e => decide (e.1 = s)) := by
    apply List.countP_congr
    intro e he
    obtain ⟨e2, he2, he2s⟩ := List.mem_map.mp hs
    by_cases heq : e.1 = s
    · simp [heq]
    · have hne : valuesPath outDir e.1 ≠ valuesPath outDir s := by
        intro hp
        apply heq
        have := hinj e he e2 he2 (by rw [hp, he2s])
        rw [this, he2s]
      simp [heq, hne]
  rw [h2]
  have h3 : m.countP (fun e => decide (e.1 = s)) =
      (m.map Prod.fst).countP (fun x => decide (x = s)) := by
    rw [List.countP_map]
    rfl
  rw [h3]
  have h4 : (m.map Prod.fst).countP (fun x => decide (x = s)) =
      (m.map Prod.fst).count s := by
    apply List.countP_congr
    intro x hx
    by_cases hxs : x = s
    · simp [hxs]
    · simp [hxs]
  rw [h4]
  exact List.count_eq_one_of_mem hnd hs

/-- C7 (amended): for every server with at least one accumulated config,
provided no two distinct accumulated server names resolve to the same
output path, a successful run writes exactly one file at
`<outDir>/<server>/values.yaml`, and its content has the fixed shape
`master.jobs.<key> = <rendered string>` with one entry per distinct job
key of that server. -/
theorem claim_C7_values_file_amended (pc : ParseFn) (dv : DefaultFn) (ev : EvalFn)
    (o : Options) (fs : TextFS) (ro : ResolvedOptions) (servers : ServersMap)
    (s : String) (cfgs : List JenkinsTemplateConfig) (ws : List (String × YVal))
    (hv : validate pc o fs = .ok ro)
    (hc : collectServers dv ro fs = .ok servers)
    (hw : writeServers ev ro.outDir servers = .ok ws)
    (hs : (s, cfgs) ∈ servers)
    (hinj : ∀ e1 ∈ servers, ∀ e2 ∈ servers,
      valuesPath ro.outDir e1.1 = valuesPath ro.outDir e2.1 → e1.1 = e2.1) :
    runJobs pc dv ev o fs = .ok ws ∧
    (ws.filter (fun w => decide (w.1 = valuesPath ro.outDir s))).length = 1 ∧
    ∃ jobs, renderServer ev s cfgs [] = .ok jobs ∧
      (valuesPath ro.outDir s,
        YVal.map [("master", YVal.map [("jobs",
          YVal.map (jobs.map (fun kv => (kv.1, YVal.str kv.2))))])]) ∈ ws ∧
      (jobs.map Prod.fst).Nodup ∧
      (∀ k, k ∈ jobs.map Prod.fst ↔ k ∈ cfgs.map JenkinsTemplateConfig.key) := by
  obtain ⟨hmap, hmem⟩ := writeServers_ok_inv ev ro.outDir servers ws hw
  obtain ⟨hknd, hkne⟩ := collectServers_goodKeys dv ro fs servers hc
  refine ⟨runJobs_eq_of_phases pc dv ev o fs ro servers ws hv hc hw, ?_, ?_⟩
  · exact filter_count_path ws servers ro.outDir s hmap hknd hinj
      (List.mem_map.mpr ⟨(s, cfgs), hs, rfl⟩)
  · obtain ⟨jobs, hr, hin⟩ := hmem (s, cfgs) hs
    refine ⟨jobs, hr, hin, ?_, ?_⟩
    · exact (renderServer_ok_keys ev s cfgs [] jobs hr).1 List.nodup_nil
    · intro k
      have hk := (renderServer_ok_keys ev s cfgs [] jobs hr).2 k
      simpa using hk

/-- C7 counterexample: the distinct server names `a` and `a/` both
resolve to the output path `out/a/values.yaml`, so one successful run
performs two writes with different job contents to that single path —
the later one replaces the earlier on disk, and the claimed
one-file-per-server property fails. -/
theorem claim_C7_counterexample :
    runJobs
      (fun _ => .ok ⟨[⟨"o", "p", "k", "n",
        [⟨"r1", "u1", "c1", some ⟨"a", ""⟩⟩,
         ⟨"r2", "u2", "c2", some ⟨"a/", ""⟩⟩]⟩]⟩)
      idDv (fun td _ _ _ => .ok ((td.lookup "Repository").getD ""))
      ⟨"", "cfg", "out", "t.xml"⟩ [("cfg", "C"), ("t.xml", "T")] =
      .ok [("out/a/values.yaml", wrapValues [("r1", "r1")]),
           ("out/a/values.yaml", wrapValues [("r2", "r2")])] ∧
    wrapValues [("r1", "r1")] ≠ wrapValues [("r2", "r2")] := by
  constructor
  · rfl
  · intro h
    simp [wrapValues] at h

/-- C3: when two repositories with the same name target the same Jenkins
server, the assembled jobs mapping of that server holds exactly one
entry under that key (its keys are without duplicates), bound to the
rendered output of the last-processed config carrying the key, and the
run completes without raising an error for the collision. -/
theorem claim_C3_last_write_wins (pc : ParseFn) (dv : DefaultFn) (ev : EvalFn)
    (o : Options) (fs : TextFS) (ro : ResolvedOptions) (servers : ServersMap)
    (s : String) (cfgs : List JenkinsTemplateConfig) (ws : List (String × YVal))
    (i j : Nat)
    (hv : validate pc o fs = .ok ro)
    (hc : collectServers dv ro fs = .ok servers)
    (hw : writeServers ev ro.outDir servers = .ok ws)
    (hs : (s, cfgs) ∈ servers)
    (hij : i < j) (hj : j < cfgs.length)
    (hkey : (cfgs.get ⟨i, Nat.lt_trans hij hj⟩).key = (cfgs.get ⟨j, hj⟩).key) :
    runJobs pc dv ev o fs = .ok ws ∧
    ∃ jobs c out, renderServer ev s cfgs [] = .ok jobs ∧
      (valuesPath ro.outDir s, wrapValues jobs) ∈ ws ∧
      (jobs.map Prod.fst).Nodup ∧
      lastWithKey (cfgs.get ⟨j, hj⟩).key cfgs = some c ∧
      renderOf ev s c = .ok out ∧
      jobs.lookup (cfgs.get ⟨j, hj⟩).key = some out := by
  obtain ⟨hmap, hmem⟩ := writeServers_ok_inv ev ro.outDir servers ws hw
  obtain ⟨jobs, hr, hin⟩ := hmem (s, cfgs) hs
  obtain ⟨c, hlast⟩ := lastWithKey_isSome_of_mem (cfgs.get ⟨j, hj⟩).key cfgs
    (cfgs.get ⟨j, hj⟩) (List.get_mem cfgs j hj) rfl
  obtain ⟨out, hro, hlk⟩ := (renderServer_ok_inv ev s cfgs [] jobs hr _).2 c hlast
  exact ⟨runJobs_eq_of_phases pc dv ev o fs ro servers ws hv hc hw,
    jobs, c, out, hr, hin,
    (renderServer_ok_keys ev s cfgs [] jobs hr).1 List.nodup_nil, hlast, hro, hlk⟩

/-- Concrete source configuration for the C3 witness: two repositories
with the same name targeting the same server. -/
def c3Group : RepositoryGroup :=
  ⟨"o", "p", "k", "n",
   [⟨"app", "u1", "c1", some ⟨"ci", ""⟩⟩, ⟨"app", "u2", "c2", some ⟨"ci", ""⟩⟩]⟩

def c3Cfg : SourceConfig := ⟨[c3Group]⟩

def c3Jtc1 : JenkinsTemplateConfig :=
  ⟨"ci", "app", "t.xml", "T", mkTemplateData c3Group ⟨"app", "u1", "c1", some ⟨"ci", ""⟩⟩⟩

def c3Jtc2 : JenkinsTemplateConfig :=
  ⟨"ci", "app", "t.xml", "T", mkTemplateData c3Group ⟨"app", "u2", "c2", some ⟨"ci", ""⟩⟩⟩

def c3Ev : EvalFn := fun td _ _ _ => .ok ((td.lookup "URL").getD "")

theorem claim_C3_last_write_wins_witness :
    runJobs (fun _ => .ok c3Cfg) idDv c3Ev ⟨"", "cfg", "out", "t.xml"⟩
      [("cfg", "C"), ("t.xml", "T")] =
      .ok [("out/ci/values.yaml", wrapValues [("app", "u2")])] ∧
    ∃ jobs c out, renderServer c3Ev "ci" [c3Jtc1, c3Jtc2] [] = .ok jobs ∧
      (valuesPath "out" "ci", wrapValues jobs) ∈
        [("out/ci/values.yaml", wrapValues [("app", "u2")])] ∧
      (jobs.map Prod.fst).Nodup ∧
      lastWithKey ([c3Jtc1, c3Jtc2].get ⟨1, by decide⟩).key [c3Jtc1, c3Jtc2] = some c ∧
      renderOf c3Ev "ci" c = .ok out ∧
      jobs.lookup ([c3Jtc1, c3Jtc2].get ⟨1, by decide⟩).key = some out :=
  claim_C3_last_write_wins (fun _ => .ok c3Cfg) idDv c3Ev
    ⟨"", "cfg", "out", "t.xml"⟩ [("cfg", "C"), ("t.xml", "T")]
    ⟨"", "cfg", "out", "t.xml", c3Cfg⟩ [("ci", [c3Jtc1, c3Jtc2])]
    "ci" [c3Jtc1, c3Jtc2] [("out/ci/values.yaml", wrapValues [("app", "u2")])]
    0 1 rfl rfl rfl (List.mem_singleton.mpr rfl) (by decide) (by decide) rfl

/-- Concrete source configuration for the C7 witness: one repository on
one server. -/
def c7Cfg : SourceConfig :=
  ⟨[⟨"o", "p", "k", "n", [⟨"app", "u", "cu", some ⟨"ci", ""⟩⟩]⟩]⟩

def c7Jtc : JenkinsTemplateConfig :=
  ⟨"ci", "app", "t.xml", "T",
   mkTemplateData ⟨"o", "p", "k", "n", [⟨"app", "u", "cu", some ⟨"ci", ""⟩⟩]⟩
     ⟨"app", "u", "cu", some ⟨"ci", ""⟩⟩⟩

def c7Ev : EvalFn := fun td _ _ _ => .ok ((td.lookup "Repository").getD "")

theorem claim_C7_values_file_amended_witness :
    runJobs (fun _ => .ok c7Cfg) idDv c7Ev ⟨"", "cfg", "out", "t.xml"⟩
      [("cfg", "C"), ("t.xml", "T")] =
      .ok [("out/ci/values.yaml", wrapValues [("app", "app")])] ∧
    ([("out/ci/values.yaml", wrapValues [("app", "app")])].filter
      (fun w => decide (w.1 = valuesPath "out" "ci"))).length = 1 ∧
    ∃ jobs, renderServer c7Ev "ci" [c7Jtc] [] = .ok jobs ∧
      (valuesPath "out" "ci",
        YVal.map [("master", YVal.map [("jobs",
          YVal.map (jobs.map (fun kv => (kv.1, YVal.str kv.2))))])]) ∈
        [("out/ci/values.yaml", wrapValues [("app", "app")])] ∧
      (jobs.map Prod.fst).Nodup ∧
      (∀ k, k ∈ jobs.map Prod.fst ↔
        k ∈ [c7Jtc].map JenkinsTemplateConfig.key) :=
  claim_C7_values_file_amended (fun _ => .ok c7Cfg) idDv c7Ev
    ⟨"", "cfg", "out", "t.xml"⟩ [("cfg", "C"), ("t.xml", "T")]
    ⟨"", "cfg", "out", "t.xml", c7Cfg⟩ [("ci", [c7Jtc])]
    "ci" [c7Jtc] [("out/ci/values.yaml", wrapValues [("app", "app")])]
    rfl rfl rfl (List.mem_singleton.mpr rfl)
    (by
      intro e1 he1 e2 he2 _
      rw [List.mem_singleton] at he1 he2
      rw [he1, he2])

end JxGitops
